import Mathlib

/-!
Verification of the hypercube container's partition pipeline.

This file gives a shallow embedding, in Lean 4, of the core of the
`hypercube` Rust crate: the partition create/extract pipeline
(compress, metadata prefix, padding, segmentation, fragmentation,
all-or-nothing transform, sequence tags, MAC), the capacity checks of
the container, and the seal operation.  Bytes are modelled as `Nat`
(values below 256), byte strings as `List Nat`, and machine integers
as `Nat` with explicit `% 2 ^ w` where wrapping matters.

External cryptographic primitives (SHA3-256, HMAC, BLAKE3) and the
compression backends (zstd, lz4, brotli) live in third-party crates,
not in this repository; they enter the embedding as explicit function
parameters (`Crypto`, `CompOracle`).  Randomness drawn inside the Rust
code (the Rivest AONT key, the 128-bit sequence base) is made explicit
as arguments of the embedded functions.
-/

set_option maxHeartbeats 1000000

namespace Hypercube

/-! ## Byte-level helpers -/

/-- Little-endian encoding of `v` into `k` bytes, as in `to_le_bytes`. -/
def toLEBytes : Nat → Nat → List Nat
  | 0, _ => []
  | k + 1, v => v % 256 :: toLEBytes k (v / 256)

/-- Little-endian decoding of a byte list, as in `from_le_bytes`. -/
def leToNat : List Nat → Nat
  | [] => 0
  | b :: bs => b + 256 * leToNat bs

/-- `xor_in_place(data, key)`: XOR `key` into `data`, stopping at the
shorter of the two; the result keeps the length of `data`. -/
def xorInPlace : List Nat → List Nat → List Nat
  | [], _ => []
  | a, [] => a
  | x :: xs, y :: ys => (x ^^^ y) :: xorInPlace xs ys

/-- Structural engine of `chunksExact`; the fuel argument only bounds
the recursion depth (one chunk consumes at least one element). -/
def chunksExactGo (n : Nat) : Nat → List α → List (List α)
  | 0, _ => []
  | fuel + 1, l =>
    if n = 0 ∨ l.length < n then []
    else l.take n :: chunksExactGo n fuel (l.drop n)

/-- `chunks_exact(n)`: consecutive chunks of exactly `n` elements,
dropping any remainder (Rust panics on `n = 0`; that case returns `[]`
here and is excluded by hypotheses wherever it matters). -/
def chunksExact (n : Nat) (l : List α) : List (List α) :=
  chunksExactGo n l.length l

/-- `Vec::resize(n, 0)`: truncate or zero-pad to length `n`. -/
def listResize (l : List Nat) (n : Nat) : List Nat :=
  l.take n ++ List.replicate (n - l.length) 0

/-- Slice assignment `dst[start .. start+|src|] = src` (in range in all
uses below). -/
def setSlice (dst : List Nat) (start : Nat) (src : List Nat) : List Nat :=
  dst.take start ++ src ++ dst.drop (start + src.length)

/-- Lexicographic `≤` on byte arrays, the derived `Ord` that Rust uses
for `SequenceNumber([u8; 16])`. -/
def bytesLe : List Nat → List Nat → Bool
  | [], [] => true
  | [], _ :: _ => true
  | _ :: _, [] => false
  | a :: as_, b :: bs =>
    if a < b then true
    else if b < a then false
    else bytesLe as_ bs

/-- Structural engine of `expandGo` (fuel bounds the iterations: each
non-empty digest contributes at least one byte). -/
def expandFuel (f : Nat → List Nat) : Nat → Nat → Nat → List Nat
  | 0, _, _ => []
  | fuel + 1, L, ctr =>
    if L = 0 then []
    else
      let d := f ctr
      if d = [] then []
      else d.take L ++ expandFuel f fuel (L - (d.take L).length) (ctr + 1)

/-- Expansion loop shared by `prf`, `expand_hash` and similar code:
push bytes of `f 0`, `f 1`, … until `L` bytes are collected.  The Rust
loop never terminates if a digest is empty; the guard returning `[]`
in that case is unreachable for real (32-byte) digests. -/
def expandGo (f : Nat → List Nat) (L ctr : Nat) : List Nat :=
  expandFuel f L L ctr

/-! ## Algorithm choices, errors, header -/

/-- `Compression` (src/hypercube/src/header.rs). -/
inductive Compression where
  | zstd | lz4 | brotli | none
deriving DecidableEq, Repr

/-- `Aont` (src/hypercube/src/header.rs). -/
inductive Aont where
  | rivest | oaep
deriving DecidableEq, Repr

/-- `HashAlgorithm` (src/hypercube/src/header.rs). -/
inductive HashAlgorithm where
  | sha3 | blake3 | sha256
deriving DecidableEq, Repr

/-- The `HypercubeError` variants reached by the embedded core
(src/hypercube/src/error.rs). -/
inductive HcError where
  | invalidDimension (n : Nat)
  | invalidBlockSize (n : Nat)
  | invalidMacBits (n : Nat)
  | fileFull (capacity : Nat)
  | dataTooLarge (dataSize maxSize : Nat)
  | integrityError (msg : String)
deriving DecidableEq, Repr

/-- `VhcHeader` (src/hypercube/src/header.rs): plaintext global
parameters of a container. -/
structure VhcHeader where
  version : Nat
  cubeId : Nat
  dimension : Nat
  blocksPerPartition : Nat
  blockSize : Nat
  macBits : Nat
  compression : Compression
  aont : Aont
  hash : HashAlgorithm
  fragmentSize : Nat
deriving DecidableEq, Repr

/-- MAC size in bytes (`mac_bytes`). -/
def VhcHeader.macBytes (h : VhcHeader) : Nat := h.macBits / 8

/-- `data_blocks_per_partition`: Rivest AONT spends one block on the
key block. -/
def VhcHeader.dataBlocksPerPartition (h : VhcHeader) : Nat :=
  match h.aont with
  | .rivest => h.blocksPerPartition - 1
  | .oaep => h.blocksPerPartition

/-- `theoretical_block_count`: capacity of the cube in blocks. -/
def VhcHeader.theoreticalBlockCount (h : VhcHeader) : Nat :=
  h.blocksPerPartition * h.dimension

/-- `total_block_size`: on-disk record size `16 + B + M`. -/
def VhcHeader.totalBlockSize (h : VhcHeader) : Nat :=
  h.blockSize + 16 + h.macBytes

/-- The doubling phase of `calculate_fragment_size`:
double `frag` while `2·frag ≤ B`, `B / (2·frag) > 8` and `2·frag ≤ 256`. -/
def calcFragDouble (blockSize frag : Nat) : Nat :=
  if h : frag * 2 ≤ blockSize ∧ blockSize / (frag * 2) > 8 ∧ frag * 2 ≤ 256 then
    calcFragDouble blockSize (frag * 2)
  else frag
termination_by 257 - frag
decreasing_by
  rcases Nat.eq_zero_or_pos frag with h0 | h0
  · exfalso; rw [h0] at h; simp at h
  · omega

/-- The halving phase of `calculate_fragment_size`:
halve `frag` while `frag > 1` and `frag ∤ B`. -/
def calcFragHalve (blockSize frag : Nat) : Nat :=
  if h : frag > 1 ∧ blockSize % frag ≠ 0 then
    calcFragHalve blockSize (frag / 2)
  else frag
termination_by frag
decreasing_by omega

/-- `VhcHeader::calculate_fragment_size` (src/hypercube/src/header.rs). -/
def calculateFragmentSize (blockSize : Nat) : Nat :=
  if blockSize = 0 then 1
  else calcFragHalve blockSize (calcFragDouble blockSize 1)

/-- `VhcHeader::new`: geometry and parameter validation. -/
def VhcHeader.new (cubeId partitions blocksPerPartition blockSize macBits : Nat) :
    Except HcError VhcHeader :=
  if partitions < 8 ∨ partitions % 8 ≠ 0 then
    .error (.invalidDimension partitions)
  else if blocksPerPartition < 8 ∨ blocksPerPartition % 8 ≠ 0 then
    .error (.invalidDimension blocksPerPartition)
  else if blockSize < 32 ∨ blockSize % 2 ≠ 0 then
    .error (.invalidBlockSize blockSize)
  else if macBits ≠ 128 ∧ macBits ≠ 256 ∧ macBits ≠ 512 then
    .error (.invalidMacBits macBits)
  else
    .ok { version := 1, cubeId := cubeId, dimension := partitions,
          blocksPerPartition := blocksPerPartition, blockSize := blockSize,
          macBits := macBits, compression := .zstd, aont := .rivest,
          hash := .sha3, fragmentSize := calculateFragmentSize blockSize }

/-! ## External primitives as parameters

The `sha3`, `hmac`, `blake3` crates and the compression backends are
outside this repository; the embedded pipeline takes them as explicit
function arguments. -/

/-- Cryptographic primitives from external crates.  Each digest /
tag-producing primitive is a plain function on byte lists. -/
structure Crypto where
  sha3 : List Nat → List Nat
  hmacSha3 : List Nat → List Nat → List Nat
  hmacSha256 : List Nat → List Nat → List Nat
  blake3Keyed : List Nat → List Nat → List Nat
  blake3Hash : List Nat → List Nat

/-- Compression backends from external crates (`none` is handled by
the repository's own code and is the identity). -/
structure CompOracle where
  zstdC : List Nat → List Nat
  zstdD : List Nat → List Nat
  lz4C : List Nat → List Nat
  lz4D : List Nat → List Nat
  brotliC : List Nat → List Nat
  brotliD : List Nat → List Nat

/-- `compress` (src/src/pipeline/compress.rs): dispatch on the
algorithm; `none` returns the data unchanged. -/
def compress (O : CompOracle) (data : List Nat) : Compression → List Nat
  | .zstd => O.zstdC data
  | .lz4 => O.lz4C data
  | .brotli => O.brotliC data
  | .none => data

/-- `decompress` (src/src/pipeline/compress.rs). -/
def decompress (O : CompOracle) (data : List Nat) : Compression → List Nat
  | .zstd => O.zstdD data
  | .lz4 => O.lz4D data
  | .brotli => O.brotliD data
  | .none => data

/-! ## Segment / fragment (src/hypercube/src/pipeline/segment.rs,
src/src/pipeline/fragment.rs) -/

/-- Loop body of `segment`: emit `block_size`-byte blocks, zero-padding
the last one.  (The Rust loop never terminates when `block_size = 0`
and the data is non-empty; that case returns `[]` here and is excluded
by `0 < block_size` wherever it matters.) -/
def segmentFuel : Nat → List Nat → Nat → List (List Nat)
  | 0, _, _ => []
  | fuel + 1, data, blockSize =>
    if 0 < data.length ∧ 0 < blockSize then
      (data.take blockSize ++
        List.replicate (blockSize - (data.take blockSize).length) 0) ::
        segmentFuel fuel (data.drop blockSize) blockSize
    else []

/-- Structural driver of the `segment` loop (fuel bounds the number of
emitted blocks). -/
def segmentGo (data : List Nat) (blockSize : Nat) : List (List Nat) :=
  segmentFuel data.length data blockSize

/-- `segment`: empty data yields one zero block. -/
def segment (data : List Nat) (blockSize : Nat) : List (List Nat) :=
  if data.length = 0 then [List.replicate blockSize 0]
  else segmentGo data blockSize

/-- `fragment_block`: split a block into `fragment_size` pieces.  The
Rust function asserts `block.len() % fragment_size == 0` and then uses
`chunks_exact`; the assert condition is modelled by
`fragmentBlockPanics`. -/
def fragment_block (block : List Nat) (fragmentSize : Nat) : List (List Nat) :=
  chunksExact fragmentSize block

/-- The panic condition of `fragment_block`'s `assert!`. -/
def fragmentBlockPanics (block : List Nat) (fragmentSize : Nat) : Bool :=
  ¬ block.length % fragmentSize = 0

/-- `fragment_all`: flat list of fragments plus `fragments_per_block`
(computed from the first block). -/
def fragment_all (blocks : List (List Nat)) (fragmentSize : Nat) :
    List (List Nat) × Nat :=
  match blocks with
  | [] => ([], 0)
  | b :: _ =>
    ((blocks.map (fun blk => fragment_block blk fragmentSize)).join,
      b.length / fragmentSize)

/-- `unfragment_block`: concatenation. -/
def unfragment_block (fragments : List (List Nat)) : List Nat :=
  fragments.join

/-- `unfragment_all`: reassemble blocks from `fragments_per_block`-sized
runs of fragments (`chunks_exact`). -/
def unfragment_all (fragments : List (List Nat)) (fragmentsPerBlock : Nat) :
    List (List Nat) :=
  if fragments = [] ∨ fragmentsPerBlock = 0 then []
  else (chunksExact fragmentsPerBlock fragments).map unfragment_block

/-! ## Sequence numbers (src/src/pipeline/sequence.rs)

`SequenceNumber` stores 16 little-endian bytes of a `u128`; its derived
`Ord` is the lexicographic order on that byte array. -/

/-- A block with its 16 sequence bytes attached (`SequencedBlock`). -/
structure SequencedBlock where
  seqBytes : List Nat
  data : List Nat
deriving DecidableEq, Repr

/-- `sequence_blocks`: tag blocks with `base, base+1, …` (wrapping
`u128` arithmetic); `base < 2^128` is the `u128` range invariant of the
caller. -/
def sequence_blocks : List (List Nat) → Nat → List SequencedBlock
  | [], _ => []
  | b :: bs, base =>
    ⟨toLEBytes 16 base, b⟩ :: sequence_blocks bs ((base + 1) % 2 ^ 128)

/-- Insertion step of the stable sort used to model `sort_by_key`:
an element moves past `y` only when its key is strictly below `y`'s. -/
def insertBlock (x : SequencedBlock) : List SequencedBlock → List SequencedBlock
  | [] => [x]
  | y :: ys =>
    if bytesLe y.seqBytes x.seqBytes then y :: insertBlock x ys
    else x :: y :: ys

/-- Stable sort by the derived (byte-lexicographic) `SequenceNumber`
order, modelling `blocks.sort_by_key(|b| b.sequence)`. -/
def sortBySeq : List SequencedBlock → List SequencedBlock
  | [] => []
  | x :: xs => insertBlock x (sortBySeq xs)

/-- The contiguity check of `unsequence_blocks`: every entry `i` must
carry sequence value `base + i` (wrapping). -/
def checkSeqs : List SequencedBlock → Nat → Nat → Bool
  | [], _, _ => true
  | b :: bs, base, i =>
    (leToNat b.seqBytes == (base + i) % 2 ^ 128) && checkSeqs bs base (i + 1)

/-- `unsequence_blocks`: sort by the derived byte order, then demand a
contiguous wrapping run starting at the first element's value. -/
def unsequence_blocks (blocks : List SequencedBlock) : Option (List (List Nat)) :=
  if blocks = [] then some []
  else
    match sortBySeq blocks with
    | [] => some []
    | b0 :: rest =>
      if checkSeqs (b0 :: rest) (leToNat b0.seqBytes) 0 then
        some ((b0 :: rest).map SequencedBlock.data)
      else none

/-! ## Keyed MAC (src/hypercube/src/pipeline/mac.rs) -/

/-- A block with sequence bytes, payload and MAC (`AuthenticatedBlock`). -/
structure AuthenticatedBlock where
  seqBytes : List Nat
  data : List Nat
  mac : List Nat
deriving DecidableEq, Repr

/-- Expansion branch of `truncate_mac`: extend with `blake3(previous)`
until `bytes` bytes are available (guard for an empty digest mirrors
`expandGo`; unreachable for the real 32-byte BLAKE3). -/
def truncExpand (C : Crypto) (acc : List Nat) (bytes : Nat) : List Nat :=
  if h : acc.length < bytes then
    if hd : (C.blake3Hash acc).length = 0 then acc
    else truncExpand C (acc ++ C.blake3Hash acc) bytes
  else acc
termination_by bytes - acc.length
decreasing_by
  rw [List.length_append]
  omega

/-- `truncate_mac`: truncate to `bytes`, or expand in BLAKE3 counter
fashion when the native tag is too short. -/
def truncate_mac (C : Crypto) (mac : List Nat) (bytes : Nat) : List Nat :=
  if bytes ≥ mac.length then (truncExpand C mac bytes).take bytes
  else mac.take bytes

/-- `derive_blake3_key`: 32-byte normalization of an arbitrary secret. -/
def derive_blake3_key (C : Crypto) (secret : List Nat) : List Nat :=
  C.blake3Hash secret

/-- `compute_mac_raw`: dispatch on the hash algorithm, then adapt the
tag length. -/
def compute_mac_raw (C : Crypto) (data secret : List Nat)
    (algorithm : HashAlgorithm) (macBits : Nat) : List Nat :=
  let macBytes := macBits / 8
  match algorithm with
  | .sha3 => truncate_mac C (C.hmacSha3 secret data) macBytes
  | .blake3 => truncate_mac C (C.blake3Keyed (derive_blake3_key C secret) data) macBytes
  | .sha256 => truncate_mac C (C.hmacSha256 secret data) macBytes

/-- `compute_mac` for a sequenced block: the message is
`sequence_bytes ‖ data`. -/
def compute_mac (C : Crypto) (block : SequencedBlock) (secret : List Nat)
    (algorithm : HashAlgorithm) (macBits : Nat) : List Nat :=
  compute_mac_raw C (block.seqBytes ++ block.data) secret algorithm macBits

/-- `constant_time_compare`: equal length and OR-accumulated XOR is 0. -/
def constantTimeCompare (a b : List Nat) : Bool :=
  if a.length ≠ b.length then false
  else ((a.zip b).foldl (fun acc p => acc ||| (p.1 ^^^ p.2)) 0) == 0

/-- `verify_mac`: recompute over `sequence_bytes ‖ data` and compare in
constant time. -/
def verify_mac (C : Crypto) (block : AuthenticatedBlock) (secret : List Nat)
    (algorithm : HashAlgorithm) (macBits : Nat) : Bool :=
  constantTimeCompare
    (compute_mac_raw C (block.seqBytes ++ block.data) secret algorithm macBits)
    block.mac

/-- `authenticate_blocks`: MAC every sequenced block. -/
def authenticate_blocks (C : Crypto) (blocks : List SequencedBlock)
    (secret : List Nat) (algorithm : HashAlgorithm) (macBits : Nat) :
    List AuthenticatedBlock :=
  blocks.map (fun block =>
    { seqBytes := block.seqBytes, data := block.data,
      mac := compute_mac C block secret algorithm macBits })

/-! ## AONT (src/hypercube/src/pipeline/aont.rs) -/

/-- `KEY_SIZE`. -/
def KEY_SIZE : Nat := 32

/-- Byte list of the label `"hypercube_rivest_prf"`. -/
def rivestPrfLabel : List Nat := "hypercube_rivest_prf".toList.map Char.toNat

/-- Byte list of the label `"hypercube_aont_half"`. -/
def aontHalfLabel : List Nat := "hypercube_aont_half".toList.map Char.toNat

/-- `prf(key, index, length)`: SHA3 of label‖key‖index‖counter,
expanded to `length` bytes. -/
def prf (C : Crypto) (key : List Nat) (index length : Nat) : List Nat :=
  expandGo (fun ctr => C.sha3 (rivestPrfLabel ++ key ++ toLEBytes 8 index ++ toLEBytes 8 ctr))
    length 0

/-- `hash_indexed(index, data)`: SHA3 of index‖data. -/
def hash_indexed (C : Crypto) (index : Nat) (data : List Nat) : List Nat :=
  C.sha3 (toLEBytes 8 index ++ data)

/-- PRF-mask every fragment at its position, as the
`iter_mut().enumerate()` loop does; `start` generalizes the enumeration
origin (the pipeline uses `start = 0`). -/
def maskFrags (C : Crypto) (key : List Nat) (start : Nat) :
    List (List Nat) → List (List Nat)
  | [] => []
  | f :: fs => xorInPlace f (prf C key start f.length) :: maskFrags C key (start + 1) fs

/-- Fold XOR-ing `hash_indexed(i, fragment)` into an accumulator, the
key-block accumulation loop. -/
def xorHashFold (C : Crypto) (start : Nat) (acc : List Nat) :
    List (List Nat) → List Nat
  | [] => acc
  | f :: fs => xorHashFold C (start + 1) (xorInPlace acc (hash_indexed C start f)) fs

/-- Key fragment `i` of the Rivest key block: the 32 key-block bytes
spread across the first `⌈32/F⌉` fragments, zeros elsewhere. -/
def mkKeyFrag (keyBlock : List Nat) (fragSize i : Nat) : List Nat :=
  let keyFragsNeeded := (KEY_SIZE + fragSize - 1) / fragSize
  if i < keyFragsNeeded ∧ i * fragSize < KEY_SIZE then
    let start := i * fragSize
    let stop := min (start + fragSize) KEY_SIZE
    (keyBlock.drop start).take (stop - start) ++
      List.replicate (fragSize - (stop - start)) 0
  else List.replicate fragSize 0

/-- Rebuild the 32 key-block bytes from the key fragments
(`rivest_aont_reverse`'s reconstruction loop). -/
def reconstructKeyBlock (keyFrags : List (List Nat)) (fragSize : Nat) : List Nat :=
  let keyFragsNeeded := (KEY_SIZE + fragSize - 1) / fragSize
  ((keyFrags.take keyFragsNeeded).enum).foldl
    (fun kb p =>
      let start := p.1 * fragSize
      let stop := min (start + fragSize) KEY_SIZE
      if start < KEY_SIZE then setSlice kb start (p.2.take (stop - start)) else kb)
    (List.replicate KEY_SIZE 0)

/-- `rivest_aont_apply` with the random 32-byte key `key` made
explicit: PRF-mask all fragments, accumulate the encrypted key block,
and append one block's worth of key fragments. -/
def rivest_aont_apply (C : Crypto) (fragments : List (List Nat))
    (fragsPerBlock : Nat) (key : List Nat) : List (List Nat) :=
  match fragments with
  | [] => fragments
  | f0 :: _ =>
    let fragSize := f0.length
    let masked := maskFrags C key 0 fragments
    let keyBlock := xorHashFold C 0 key masked
    masked ++ (List.range fragsPerBlock).map (mkKeyFrag keyBlock fragSize)

/-- `rivest_aont_reverse`: pop the key block, reconstruct the key, and
undo the PRF masks. -/
def rivest_aont_reverse (C : Crypto) (fragments : List (List Nat))
    (fragsPerBlock : Nat) : List (List Nat) :=
  if fragments.length < fragsPerBlock + 1 then fragments
  else
    match fragments with
    | [] => fragments
    | f0 :: _ =>
      let fragSize := f0.length
      let payload := fragments.take (fragments.length - fragsPerBlock)
      let keyFrags := fragments.drop (fragments.length - fragsPerBlock)
      let keyBlock0 := reconstructKeyBlock keyFrags fragSize
      let keyBlock := xorHashFold C 0 keyBlock0 payload
      maskFrags C keyBlock 0 payload

/-- `compute_half_hash`: SHA3 of the label and the concatenated half. -/
def compute_half_hash (C : Crypto) (fragments : List (List Nat)) : List Nat :=
  C.sha3 (aontHalfLabel ++ fragments.join)

/-- `expand_hash(seed, length)`: SHA3 counter expansion of a seed. -/
def expand_hash (C : Crypto) (seed : List Nat) (length : Nat) : List Nat :=
  expandGo (fun ctr => C.sha3 (seed ++ toLEBytes 8 ctr)) length 0

/-- XOR the expansion of `seed` into every fragment of a half. -/
def maskHalf (C : Crypto) (seed : List Nat) (fragments : List (List Nat)) :
    List (List Nat) :=
  fragments.map (fun f => xorInPlace f (expand_hash C seed f.length))

/-- `oaep_aont_apply`: 2-round Feistel over the two halves. -/
def oaep_aont_apply (C : Crypto) (fragments : List (List Nat)) : List (List Nat) :=
  if fragments.length < 2 then fragments
  else
    let mid := fragments.length / 2
    let leftHash := compute_half_hash C (fragments.take mid)
    let right := maskHalf C leftHash (fragments.drop mid)
    let rightHash := compute_half_hash C right
    let left := maskHalf C rightHash (fragments.take mid)
    left ++ right

/-- `oaep_aont_reverse`: the two rounds in reverse order. -/
def oaep_aont_reverse (C : Crypto) (fragments : List (List Nat)) : List (List Nat) :=
  if fragments.length < 2 then fragments
  else
    let mid := fragments.length / 2
    let rightHash := compute_half_hash C (fragments.drop mid)
    let left := maskHalf C rightHash (fragments.take mid)
    let leftHash := compute_half_hash C left
    let right := maskHalf C leftHash (fragments.drop mid)
    left ++ right

/-- `apply_aont`: dispatch on the AONT variant; `key` is the random
32-byte Rivest key (ignored by OAEP). -/
def apply_aont (C : Crypto) (fragments : List (List Nat)) (algorithm : Aont)
    (fragsPerBlock : Nat) (key : List Nat) : List (List Nat) :=
  match algorithm with
  | .rivest => rivest_aont_apply C fragments fragsPerBlock key
  | .oaep => oaep_aont_apply C fragments

/-- `reverse_aont`. -/
def reverse_aont (C : Crypto) (fragments : List (List Nat)) (algorithm : Aont)
    (fragsPerBlock : Nat) : List (List Nat) :=
  match algorithm with
  | .rivest => rivest_aont_reverse C fragments fragsPerBlock
  | .oaep => oaep_aont_reverse C fragments

/-! ## Partition create / extract (src/hypercube/src/partition.rs) -/

/-- `PartitionMeta::SIZE`. -/
def META_SIZE : Nat := 16

/-- `PartitionMeta::to_bytes`: `compressed_size` and `original_size`
as little-endian `u64`. -/
def partitionMetaBytes (compressedSize originalSize : Nat) : List Nat :=
  toLEBytes 8 compressedSize ++ toLEBytes 8 originalSize

/-- Steps 3–9 of `create_partition` after the optional padding:
segment, fragment, AONT, unfragment, sequence, MAC, serialize. -/
def partitionPipeline (C : Crypto) (payload secret : List Nat) (hdr : VhcHeader)
    (aontKey : List Nat) (seqBase : Nat) : List (List Nat) :=
  let blocks := segment payload hdr.blockSize
  let fa := fragment_all blocks hdr.fragmentSize
  let fragments := apply_aont C fa.1 hdr.aont fa.2 aontKey
  let transformedBlocks := unfragment_all fragments fa.2
  let sequenced := sequence_blocks transformedBlocks seqBase
  let authenticated := authenticate_blocks C sequenced secret hdr.hash hdr.macBits
  authenticated.map (fun b => b.seqBytes ++ b.data ++ b.mac)

/-- `create_partition` with the two random draws (32-byte AONT key,
128-bit sequence base) made explicit.  Compression is total here
(external backends are oracles), so the only error paths are the
padding checks, exactly as in the source. -/
def create_partition (C : Crypto) (O : CompOracle) (data secret : List Nat)
    (hdr : VhcHeader) (padToBlocks : Option Nat) (aontKey : List Nat)
    (seqBase : Nat) : Except HcError (List (List Nat)) :=
  let compressed := compress O data hdr.compression
  let dataWithMeta := partitionMetaBytes compressed.length data.length ++ compressed
  match padToBlocks with
  | some targetBlocks =>
    if targetBlocks = 0 then .error (.invalidDimension 0)
    else
      let targetBytes := hdr.blockSize * targetBlocks
      if dataWithMeta.length > targetBytes then .error (.fileFull targetBlocks)
      else .ok (partitionPipeline C (listResize dataWithMeta targetBytes) secret hdr
        aontKey seqBase)
  | Option.none => .ok (partitionPipeline C dataWithMeta secret hdr aontKey seqBase)

/-- Split a serialized on-disk record into sequence bytes, payload and
MAC (the slicing in `extract_partition`'s scan loop). -/
def parseAuthBlock (block : List Nat) (dataSize : Nat) : AuthenticatedBlock :=
  { seqBytes := block.take 16,
    data := (block.drop 16).take dataSize,
    mac := block.drop (16 + dataSize) }

/-- Steps 8–10 of `extract_partition`: metadata parse, bounds check,
decompress, size check. -/
def finalize_payload (O : CompOracle) (allData : List Nat) (comp : Compression) :
    Except HcError (List Nat) :=
  if allData.length < META_SIZE then
    .error (.integrityError "Data too short for metadata")
  else
    let compressedSize := leToNat (allData.take 8)
    let originalSize := leToNat ((allData.drop 8).take 8)
    let compressedEnd := META_SIZE + compressedSize
    if compressedEnd > allData.length then
      .error (.integrityError "Invalid compressed size in metadata")
    else
      let compressed := (allData.drop META_SIZE).take compressedSize
      let data := decompress O compressed comp
      if data.length ≠ originalSize then
        .error (.integrityError "Original size mismatch after decompression")
      else .ok data

/-- `extract_partition`: scan all blocks, keep those of the right
length whose MAC verifies, demand a contiguous sequence run, undo the
AONT, join and validate. -/
def extract_partition (C : Crypto) (O : CompOracle) (allBlocks : List (List Nat))
    (secret : List Nat) (hdr : VhcHeader) : Except HcError (List Nat) :=
  let macBytes := hdr.macBytes
  let dataSize := hdr.blockSize
  let expectedBlockSize := 16 + dataSize + macBytes
  let authenticatedBlocks := allBlocks.filterMap (fun block =>
    if block.length = expectedBlockSize then
      let ab := parseAuthBlock block dataSize
      if verify_mac C ab secret hdr.hash hdr.macBits then some ab else Option.none
    else Option.none)
  if authenticatedBlocks = [] then
    .error (.integrityError "No blocks authenticated with this secret")
  else
    let sequenced := authenticatedBlocks.map (fun b =>
      SequencedBlock.mk b.seqBytes b.data)
    match unsequence_blocks sequenced with
    | Option.none => .error (.integrityError "Invalid sequence numbers")
    | some transformedBlocks =>
      let fa := fragment_all transformedBlocks hdr.fragmentSize
      let fragments := reverse_aont C fa.1 hdr.aont fa.2
      let blocks := unfragment_all fragments fa.2
      finalize_payload O blocks.join hdr.compression

/-! ## Container capacity (src/hypercube/src/cli/add.rs) and seal
(src/hypercube/src/cli/seal.rs)

`append_blocks_to_vhc` itself writes unconditionally; the capacity
check guarding every append of a created partition lives in
`add_partition`.  Only the on-disk block count matters for these
claims, so the file state is modelled by its block count. -/

/-- The capacity check of `add_partition` before it appends: `remaining
= capacity.saturating_sub(current)`; more new blocks than that is
`FileFull`, otherwise the append makes the count `current + new`. -/
def addCapacityCheck (capacity current newBlocks : Nat) : Except HcError Nat :=
  if newBlocks > capacity - current then .error (.fileFull capacity)
  else .ok (current + newBlocks)

/-- A sequence of checked appends, each of `n` blocks, propagating the
first failure. -/
def runAdds (capacity : Nat) : Nat → List Nat → Except HcError Nat
  | current, [] => .ok current
  | current, n :: ns =>
    match addCapacityCheck capacity current n with
    | .error e => .error e
    | .ok c => runAdds capacity c ns

/-- The chaff loop of `seal_file`: each iteration a chaff partition of
`produced` blocks is created and `min remaining produced` of them kept,
until no capacity remains; returns the number of blocks accumulated.
(The Rust loop retries forever when a partition yields no blocks; the
guard returning 0 there is unreachable for `produced ≥ 1`.) -/
def sealLoop (remaining produced : Nat) : Nat :=
  if h : remaining = 0 then 0
  else
    let take := min remaining produced
    if ht : take = 0 then 0
    else take + sealLoop (remaining - take) produced
termination_by remaining
decreasing_by omega

/-- `seal_file`, at the block-count level: its result is the number of
blocks appended, and the final file count is `current + added`. -/
def seal_file (current capacity produced : Nat) : Except HcError Nat :=
  if capacity = 0 then .ok 0
  else if current > capacity then .error (.fileFull capacity)
  else if current = capacity then .ok 0
  else .ok (sealLoop (capacity - current) produced)

/-! ## Concrete instantiations for witnesses

Cheap, fully computable stand-ins for the external primitives: they
have the right output sizes and depend on their inputs, which is all
the concrete evaluations below need. -/

/-- Byte-sum based stand-in digests of the correct 32-byte size. -/
def testCrypto : Crypto where
  sha3 := fun l => List.replicate 32 ((l.foldl (· + ·) 0 + l.length + 1) % 256)
  hmacSha3 := fun s m =>
    List.replicate 32 ((3 * s.foldl (· + ·) 0 + m.foldl (· + ·) 0 + m.length) % 256)
  hmacSha256 := fun s m =>
    List.replicate 32 ((5 * s.foldl (· + ·) 0 + m.foldl (· + ·) 0 + 2 * m.length) % 256)
  blake3Keyed := fun k m =>
    List.replicate 32 ((7 * k.foldl (· + ·) 0 + m.foldl (· + ·) 0) % 256)
  blake3Hash := fun l => List.replicate 32 ((l.foldl (· + ·) 0 + 2 * l.length + 3) % 256)

/-- Identity stand-ins for the compression backends. -/
def testOracle : CompOracle where
  zstdC := id
  zstdD := id
  lz4C := id
  lz4D := id
  brotliC := id
  brotliD := id

/-- A small valid header: dimension 8, 8 blocks per partition, 32-byte
blocks, 128-bit MACs, no compression, OAEP, SHA3. -/
def testHeader : VhcHeader where
  version := 1
  cubeId := 8
  dimension := 8
  blocksPerPartition := 8
  blockSize := 32
  macBits := 128
  compression := .none
  aont := .oaep
  hash := .sha3
  fragmentSize := 2

/-! ## Basic lemmas on the byte-level helpers -/

lemma chunksExactGo_congr (n : Nat) :
    ∀ (fuel fuel' : Nat) (l : List α), l.length ≤ fuel → l.length ≤ fuel' →
      chunksExactGo n fuel l = chunksExactGo n fuel' l := by
  intro fuel
  induction fuel with
  | zero =>
    intro fuel' l hl _
    have : l = [] := List.eq_nil_of_length_eq_zero (by omega)
    subst this
    cases fuel' with
    | zero => rfl
    | succ fuel' =>
      show [] = chunksExactGo n (fuel' + 1) []
      rw [chunksExactGo]
      rw [if_pos (by simp; omega)]
  | succ fuel ih =>
    intro fuel' l hl hl'
    cases fuel' with
    | zero =>
      have : l = [] := List.eq_nil_of_length_eq_zero (by omega)
      subst this
      show chunksExactGo n (fuel + 1) [] = []
      rw [chunksExactGo, if_pos (by simp; omega)]
    | succ fuel' =>
      rw [chunksExactGo, chunksExactGo]
      by_cases hc : n = 0 ∨ l.length < n
      · rw [if_pos hc, if_pos hc]
      · rw [if_neg hc, if_neg hc]
        push_neg at hc
        have hdrop : (l.drop n).length = l.length - n := List.length_drop n l
        have h1 : 0 < n := Nat.pos_of_ne_zero hc.1
        rw [ih fuel' (l.drop n) (by omega) (by omega)]

lemma chunksExact_step (n : Nat) (l : List α) :
    chunksExact n l =
      if n = 0 ∨ l.length < n then []
      else l.take n :: chunksExact n (l.drop n) := by
  unfold chunksExact
  cases hl : l.length with
  | zero =>
    have : l = [] := List.eq_nil_of_length_eq_zero hl
    subst this
    show [] = _
    rw [if_pos (by omega)]
  | succ m =>
    rw [chunksExactGo]
    have hdrop : (l.drop n).length = l.length - n := List.length_drop n l
    by_cases hc : n = 0 ∨ l.length < n
    · rw [if_pos hc, if_pos (show n = 0 ∨ m + 1 < n by omega)]
    · rw [if_neg hc, if_neg (show ¬(n = 0 ∨ m + 1 < n) by omega)]
      push_neg at hc
      have h1 : 0 < n := Nat.pos_of_ne_zero hc.1
      rw [chunksExactGo_congr n m (l.drop n).length (l.drop n) (by omega) (by omega)]

lemma segmentFuel_congr :
    ∀ (fuel fuel' : Nat) (data : List Nat) (B : Nat), data.length ≤ fuel →
      data.length ≤ fuel' → segmentFuel fuel data B = segmentFuel fuel' data B := by
  intro fuel
  induction fuel with
  | zero =>
    intro fuel' data B hl _
    have : data = [] := List.eq_nil_of_length_eq_zero (by omega)
    subst this
    cases fuel' with
    | zero => rfl
    | succ fuel' =>
      show [] = segmentFuel (fuel' + 1) [] B
      rw [segmentFuel, if_neg (by simp)]
  | succ fuel ih =>
    intro fuel' data B hl hl'
    cases fuel' with
    | zero =>
      have : data = [] := List.eq_nil_of_length_eq_zero (by omega)
      subst this
      show segmentFuel (fuel + 1) [] B = []
      rw [segmentFuel, if_neg (by simp)]
    | succ fuel' =>
      rw [segmentFuel, segmentFuel]
      by_cases hc : 0 < data.length ∧ 0 < B
      · rw [if_pos hc, if_pos hc]
        have hdrop : (data.drop B).length = data.length - B := List.length_drop B data
        rw [ih fuel' (data.drop B) B (by omega) (by omega)]
      · rw [if_neg hc, if_neg hc]

lemma segmentGo_step (data : List Nat) (B : Nat) :
    segmentGo data B =
      if 0 < data.length ∧ 0 < B then
        (data.take B ++ List.replicate (B - (data.take B).length) 0) ::
          segmentGo (data.drop B) B
      else [] := by
  unfold segmentGo
  cases hl : data.length with
  | zero =>
    have : data = [] := List.eq_nil_of_length_eq_zero hl
    subst this
    show [] = _
    rw [if_neg (by omega)]
  | succ m =>
    rw [segmentFuel]
    have hdrop : (data.drop B).length = data.length - B := List.length_drop B data
    by_cases hc : 0 < data.length ∧ 0 < B
    · rw [if_pos hc, if_pos (show 0 < m + 1 ∧ 0 < B by omega)]
      rw [segmentFuel_congr m (data.drop B).length (data.drop B) B (by omega) (by omega)]
    · rw [if_neg hc, if_neg (show ¬(0 < m + 1 ∧ 0 < B) by omega)]

lemma xorInPlace_length : ∀ (a b : List Nat), (xorInPlace a b).length = a.length := by
  intro a
  induction a with
  | nil => intro b; cases b <;> rfl
  | cons x xs ih =>
    intro b
    cases b with
    | nil => rfl
    | cons y ys => simp [xorInPlace, ih]

lemma xorInPlace_cancel : ∀ (a b : List Nat), xorInPlace (xorInPlace a b) b = a := by
  intro a
  induction a with
  | nil => intro b; cases b <;> rfl
  | cons x xs ih =>
    intro b
    cases b with
    | nil => rfl
    | cons y ys =>
      show (x ^^^ y ^^^ y) :: xorInPlace (xorInPlace xs ys) ys = x :: xs
      rw [Nat.xor_cancel_right, ih]

lemma xorInPlace_swap : ∀ (x a b : List Nat),
    xorInPlace (xorInPlace x a) b = xorInPlace (xorInPlace x b) a := by
  intro x
  induction x with
  | nil => intro a b; cases a <;> cases b <;> rfl
  | cons v vs ih =>
    intro a b
    cases a with
    | nil => cases b <;> rfl
    | cons p ps =>
      cases b with
      | nil => rfl
      | cons q qs =>
        show (v ^^^ p ^^^ q) :: xorInPlace (xorInPlace vs ps) qs =
          (v ^^^ q ^^^ p) :: xorInPlace (xorInPlace vs qs) ps
        rw [ih ps qs, Nat.xor_assoc, Nat.xor_assoc, Nat.xor_comm p q]

/-! ## Fragment-size derivation: loop invariants -/

lemma calcFragDouble_bounds (B : Nat) :
    ∀ f, 1 ≤ f → f ≤ 256 → 1 ≤ calcFragDouble B f ∧ calcFragDouble B f ≤ 256 := by
  intro f
  refine calcFragDouble.induct B
    (fun g => 1 ≤ g → g ≤ 256 → 1 ≤ calcFragDouble B g ∧ calcFragDouble B g ≤ 256)
    ?_ ?_ f
  · intro x hx ih h1 h2
    rw [calcFragDouble, dif_pos hx]
    exact ih (by omega) (by omega)
  · intro x hx h1 h2
    rw [calcFragDouble, dif_neg hx]
    exact ⟨h1, h2⟩

lemma calcFragHalve_spec (B : Nat) :
    ∀ f, 1 ≤ f →
      1 ≤ calcFragHalve B f ∧ calcFragHalve B f ≤ f ∧ B % calcFragHalve B f = 0 := by
  intro f
  refine calcFragHalve.induct B
    (fun g => 1 ≤ g →
      1 ≤ calcFragHalve B g ∧ calcFragHalve B g ≤ g ∧ B % calcFragHalve B g = 0)
    ?_ ?_ f
  · intro x hx ih h1
    rw [calcFragHalve, dif_pos hx]
    have := ih (by omega)
    exact ⟨this.1, by omega, this.2.2⟩
  · intro x hx h1
    rw [calcFragHalve, dif_neg hx]
    refine ⟨h1, le_refl x, ?_⟩
    by_cases hone : x = 1
    · simp [hone, Nat.mod_one]
    · push_neg at hx
      exact hx (by omega)

/-- The derived fragment size is a divisor of the block size in
`[1, 256]`, for every positive block size. -/
lemma calculateFragmentSize_spec (B : Nat) (hB : 0 < B) :
    1 ≤ calculateFragmentSize B ∧ calculateFragmentSize B ≤ 256 ∧
      B % calculateFragmentSize B = 0 := by
  unfold calculateFragmentSize
  rw [if_neg (by omega)]
  have hd := calcFragDouble_bounds B 1 (by omega) (by omega)
  have hh := calcFragHalve_spec B (calcFragDouble B 1) hd.1
  exact ⟨hh.1, by omega, hh.2.2⟩

lemma calculateFragmentSize_dvd (B : Nat) (hB : 0 < B) :
    calculateFragmentSize B ∣ B :=
  Nat.dvd_of_mod_eq_zero (calculateFragmentSize_spec B hB).2.2

lemma calculateFragmentSize_le (B : Nat) (hB : 0 < B) :
    calculateFragmentSize B ≤ B :=
  Nat.le_of_dvd hB (calculateFragmentSize_dvd B hB)

/-- C9: for every block size accepted by header validation, the
derived fragment size lies in `[1, 256]` and divides the block size,
so `fragment_block`'s assert can never fire on a full block. -/
theorem claim_C9 (cubeId partitions bpp blockSize macBits : Nat) (hdr : VhcHeader)
    (h : VhcHeader.new cubeId partitions bpp blockSize macBits = .ok hdr) :
    1 ≤ hdr.fragmentSize ∧ hdr.fragmentSize ≤ 256 ∧
      hdr.fragmentSize ∣ hdr.blockSize ∧
      ∀ block : List Nat, block.length = hdr.blockSize →
        fragmentBlockPanics block hdr.fragmentSize = false := by
  unfold VhcHeader.new at h
  split_ifs at h with h1 h2 h3 h4
  injection h with h
  subst h
  simp only
  push_neg at h3
  have hB : 0 < blockSize := by omega
  have hs := calculateFragmentSize_spec blockSize hB
  refine ⟨hs.1, hs.2.1, Nat.dvd_of_mod_eq_zero hs.2.2, ?_⟩
  intro block hlen
  simp [fragmentBlockPanics, hlen, hs.2.2]

/-- Witness for C9 at the smallest valid geometry. -/
theorem claim_C9_witness :
    ∃ hdr, VhcHeader.new 8 8 8 32 128 = .ok hdr ∧
      (1 ≤ hdr.fragmentSize ∧ hdr.fragmentSize ≤ 256 ∧
        hdr.fragmentSize ∣ hdr.blockSize ∧
        ∀ block : List Nat, block.length = hdr.blockSize →
          fragmentBlockPanics block hdr.fragmentSize = false) := by
  refine ⟨_, rfl, claim_C9 8 8 8 32 128 _ rfl⟩

/-! ## Capacity of appends (C5) -/

/-- C5: a checked append fails with file-full exactly when the current
count plus the new blocks would exceed capacity (and succeeds with the
count increased otherwise), and consequently any sequence of
successful checked appends keeps the on-disk count at or below
capacity. -/
theorem claim_C5 :
    (∀ capacity current n, current ≤ capacity →
      (addCapacityCheck capacity current n = .error (.fileFull capacity) ↔
        capacity < current + n)) ∧
    (∀ capacity ns current c, current ≤ capacity →
      runAdds capacity current ns = .ok c → c ≤ capacity) := by
  constructor
  · intro capacity current n hcur
    unfold addCapacityCheck
    split_ifs with h
    · simp only [true_iff]
      omega
    · simp only [reduceCtorEq, false_iff, not_lt]
      omega
  · intro capacity ns
    induction ns with
    | nil =>
      intro current c hcur h
      unfold runAdds at h
      injection h with h
      omega
    | cons n ns ih =>
      intro current c hcur h
      unfold runAdds addCapacityCheck at h
      split_ifs at h with hfull
      · exact ih (current + n) c (by omega) h

/-- Witness for C5: a full 8×8 cube rejects one more partition, and
two successful 8-block appends stay within capacity. -/
theorem claim_C5_witness :
    (addCapacityCheck 64 60 8 = .error (.fileFull 64) ↔ 64 < 60 + 8) ∧
      (runAdds 64 0 [8, 8] = .ok 16 → 16 ≤ 64) :=
  ⟨claim_C5.1 64 60 8 (by decide), fun h => claim_C5.2 64 [8, 8] 0 16 (by decide) h⟩

/-! ## Seal (C7) -/

lemma sealLoop_eq_remaining (produced : Nat) (hp : 0 < produced) :
    ∀ remaining, sealLoop remaining produced = remaining := by
  intro remaining
  induction remaining using Nat.strong_induction_on with
  | _ r ih =>
    rw [sealLoop]
    dsimp only
    split_ifs with h0 ht
    · omega
    · omega
    · have := ih (r - min r produced) (by omega)
      omega

/-- C7: sealing a file at or below capacity `N²` succeeds and brings
the count to exactly `N²`; sealing a full file adds zero blocks;
sealing an over-full file fails with file-full. -/
theorem claim_C7 (current N : Nat) (hN : 0 < N) :
    (current ≤ N * N →
      ∃ added, seal_file current (N * N) N = .ok added ∧
        current + added = N * N) ∧
    seal_file (N * N) (N * N) N = .ok 0 ∧
    (N * N < current → seal_file current (N * N) N = .error (.fileFull (N * N))) := by
  have hcap : 0 < N * N := Nat.mul_pos hN hN
  refine ⟨?_, ?_, ?_⟩
  · intro hle
    by_cases hfull : current = N * N
    · subst hfull
      unfold seal_file
      rw [if_neg (by omega), if_neg (by omega), if_pos rfl]
      exact ⟨0, rfl, by omega⟩
    · unfold seal_file
      rw [if_neg (by omega), if_neg (by omega), if_neg hfull]
      exact ⟨N * N - current, by rw [sealLoop_eq_remaining N hN], by omega⟩
  · unfold seal_file
    rw [if_neg (by omega), if_neg (by omega), if_pos rfl]
  · intro hover
    unfold seal_file
    rw [if_neg (by omega), if_pos (by omega)]

/-- Witness for C7 on an 8×8 cube holding 10 blocks. -/
theorem claim_C7_witness :
    ∃ added, seal_file 10 (8 * 8) 8 = .ok added ∧ 10 + added = 8 * 8 :=
  (claim_C7 10 8 (by decide)).1 (by decide)

/-! ## Post-AONT validation (C8) -/

/-- C8: after MAC filtering and the inverse AONT, the two remaining
validations fail as integrity errors — a compressed size overflowing
the recovered payload, and a decompressed size differing from the
recorded original size — and a successful result is always the full
decompression of the recorded range, never a partial payload. -/
theorem claim_C8 (O : CompOracle) (allData : List Nat) (comp : Compression) :
    (META_SIZE ≤ allData.length →
      allData.length < META_SIZE + leToNat (allData.take 8) →
      finalize_payload O allData comp =
        .error (.integrityError "Invalid compressed size in metadata")) ∧
    (META_SIZE + leToNat (allData.take 8) ≤ allData.length →
      (decompress O ((allData.drop META_SIZE).take (leToNat (allData.take 8))) comp).length ≠
        leToNat ((allData.drop 8).take 8) →
      finalize_payload O allData comp =
        .error (.integrityError "Original size mismatch after decompression")) ∧
    (∀ d, finalize_payload O allData comp = .ok d →
      d = decompress O ((allData.drop META_SIZE).take (leToNat (allData.take 8))) comp ∧
        d.length = leToNat ((allData.drop 8).take 8)) := by
  refine ⟨?_, ?_, ?_⟩
  · intro hlen hover
    unfold finalize_payload
    rw [if_neg (by omega)]
    dsimp only
    rw [if_pos (by omega)]
  · intro hfit hmis
    unfold finalize_payload
    rw [if_neg (by omega)]
    dsimp only
    rw [if_neg (by omega), if_pos hmis]
  · intro d h
    unfold finalize_payload at h
    dsimp only at h
    split_ifs at h with h1 h2 h3
    injection h with h
    subst h
    exact ⟨rfl, by omega⟩

/-- Witness for C8: 16 bytes of metadata claiming 100 compressed bytes
that are not there. -/
theorem claim_C8_witness :
    finalize_payload testOracle (partitionMetaBytes 100 0) .none =
      .error (.integrityError "Invalid compressed size in metadata") :=
  (claim_C8 testOracle (partitionMetaBytes 100 0) .none).1 (by decide) (by decide)

/-! ## Sequence tags (C4)

`unsequence_blocks` sorts by the derived `Ord` of
`SequenceNumber([u8; 16])`, which is lexicographic on the little-endian
bytes, not numeric on the `u128`.  The round trip therefore survives
exactly when assigning the run causes no carry out of the low byte. -/

lemma leToNat_toLEBytes (k : Nat) : ∀ v, leToNat (toLEBytes k v) = v % 256 ^ k := by
  induction k with
  | zero => intro v; simp [toLEBytes, leToNat, Nat.mod_one]
  | succ k ih =>
    intro v
    have : (256 : Nat) ^ (k + 1) = 256 * 256 ^ k := by ring
    rw [this, Nat.mod_mul]
    simp [toLEBytes, leToNat, ih]

lemma toLEBytes_no_carry (s i : Nat) (h : s % 256 + i < 256) :
    toLEBytes 16 (s + i) = (s % 256 + i) :: toLEBytes 15 (s / 256) := by
  have h1 : (s + i) % 256 = s % 256 + i := by omega
  have h2 : (s + i) / 256 = s / 256 := by omega
  rw [show toLEBytes 16 (s + i) = (s + i) % 256 :: toLEBytes 15 ((s + i) / 256) from rfl,
    h1, h2]

lemma bytesLe_head_gt (a b : Nat) (t1 t2 : List Nat) (h : a < b) :
    bytesLe (b :: t1) (a :: t2) = false := by
  simp only [bytesLe]
  rw [if_neg (by omega), if_pos h]

lemma sequence_blocks_map_data : ∀ (blocks : List (List Nat)) (s : Nat),
    (sequence_blocks blocks s).map SequencedBlock.data = blocks := by
  intro blocks
  induction blocks with
  | nil => intro s; rfl
  | cons b bs ih => intro s; simp [sequence_blocks, ih]

lemma sortBySeq_sequence_id : ∀ (blocks : List (List Nat)) (s : Nat),
    s < 2 ^ 128 → s % 256 + blocks.length ≤ 256 →
    sortBySeq (sequence_blocks blocks s) = sequence_blocks blocks s := by
  intro blocks
  induction blocks with
  | nil => intro s _ _; rfl
  | cons b bs ih =>
    intro s hs hnc
    match bs with
    | [] => rfl
    | b2 :: bs2 =>
      have hmod : s % 256 < 255 := by
        simp at hnc
        omega
      have hs1 : s + 1 < 2 ^ 128 := by
        rcases Nat.lt_or_ge (s + 1) (2 ^ 128) with h | h
        · exact h
        · exfalso
          have heq : s = 2 ^ 128 - 1 := by omega
          have : s % 256 = 255 := by
            subst heq
            rfl
          omega
      have ih2 := ih (s + 1) hs1 (by simp at hnc ⊢; omega)
      show insertBlock ⟨toLEBytes 16 s, b⟩
          (sortBySeq (sequence_blocks (b2 :: bs2) ((s + 1) % 2 ^ 128))) = _
      rw [Nat.mod_eq_of_lt hs1, ih2]
      show insertBlock ⟨toLEBytes 16 s, b⟩
          (⟨toLEBytes 16 (s + 1), b2⟩ :: sequence_blocks bs2 ((s + 1 + 1) % 2 ^ 128)) = _
      unfold insertBlock
      have hx : toLEBytes 16 s = (s % 256 + 0) :: toLEBytes 15 (s / 256) := by
        have := toLEBytes_no_carry s 0 (by omega)
        simpa using this
      have hy : toLEBytes 16 (s + 1) = (s % 256 + 1) :: toLEBytes 15 (s / 256) :=
        toLEBytes_no_carry s 1 (by omega)
      simp only [hx, hy]
      rw [bytesLe_head_gt _ _ _ _ (by omega)]
      show (⟨(s % 256 + 0) :: toLEBytes 15 (s / 256), b⟩ : SequencedBlock) ::
          (⟨(s % 256 + 1) :: toLEBytes 15 (s / 256), b2⟩ : SequencedBlock) ::
          sequence_blocks bs2 ((s + 1 + 1) % 2 ^ 128) =
          sequence_blocks (b :: b2 :: bs2) s
      show _ = (⟨toLEBytes 16 s, b⟩ : SequencedBlock) ::
          sequence_blocks (b2 :: bs2) ((s + 1) % 2 ^ 128)
      rw [Nat.mod_eq_of_lt hs1, hx]
      show _ = _ :: (⟨toLEBytes 16 (s + 1), b2⟩ : SequencedBlock) ::
          sequence_blocks bs2 ((s + 1 + 1) % 2 ^ 128)
      rw [hy]

lemma checkSeqs_sequence : ∀ (blocks : List (List Nat)) (s base i : Nat),
    s < 2 ^ 128 → s + blocks.length ≤ 2 ^ 128 → (base + i) % 2 ^ 128 = s →
    checkSeqs (sequence_blocks blocks s) base i = true := by
  intro blocks
  induction blocks with
  | nil => intro s base i _ _ _; rfl
  | cons b bs ih =>
    intro s base i hs hlen hbase
    show ((leToNat (toLEBytes 16 s) == (base + i) % 2 ^ 128) &&
        checkSeqs (sequence_blocks bs ((s + 1) % 2 ^ 128)) base (i + 1)) = true
    have hval : leToNat (toLEBytes 16 s) = s := by
      rw [leToNat_toLEBytes]
      have : (256 : Nat) ^ 16 = 2 ^ 128 := by norm_num
      rw [this]
      exact Nat.mod_eq_of_lt hs
    rw [hval, hbase]
    simp only [beq_self_eq_true, Bool.true_and]
    match bs with
    | [] => rfl
    | b2 :: bs2 =>
      have hs1 : s + 1 < 2 ^ 128 := by
        have : 1 ≤ (b2 :: bs2).length := by simp
        simp at hlen
        omega
      rw [Nat.mod_eq_of_lt hs1]
      apply ih (s + 1) base (i + 1) hs1 (by simp at hlen ⊢; omega)
      rw [show base + (i + 1) = base + i + 1 from rfl, Nat.add_mod, hbase]
      rw [show (1 : Nat) % 2 ^ 128 = 1 from Nat.mod_eq_of_lt (by norm_num)]
      exact Nat.mod_eq_of_lt hs1

/-- The sequence round trip under a carry-free base: shared by the C4
analysis and the end-to-end round-trip theorem below. -/
lemma unseq_seq_good (blocks : List (List Nat)) (s : Nat) (h1 : blocks ≠ [])
    (h2 : s < 2 ^ 128) (h3 : s % 256 + blocks.length ≤ 256) :
    unsequence_blocks (sequence_blocks blocks s) = some blocks := by
  have hslen : s + blocks.length ≤ 2 ^ 128 := by
    have h256 : (2 : Nat) ^ 128 % 256 = 0 := by decide
    omega
  unfold unsequence_blocks
  rw [if_neg (by
    cases blocks with
    | nil => exact absurd rfl h1
    | cons b bs => simp [sequence_blocks])]
  rw [sortBySeq_sequence_id blocks s h2 h3]
  cases blocks with
  | nil => exact absurd rfl h1
  | cons b bs =>
    show (if checkSeqs _ (leToNat (toLEBytes 16 s)) 0 then _ else Option.none) = _
    have hval : leToNat (toLEBytes 16 s) = s := by
      rw [leToNat_toLEBytes]
      have : (256 : Nat) ^ 16 = 2 ^ 128 := by norm_num
      rw [this]
      exact Nat.mod_eq_of_lt h2
    rw [hval]
    rw [show checkSeqs (⟨toLEBytes 16 s, b⟩ :: sequence_blocks bs ((s + 1) % 2 ^ 128)) s 0 =
        checkSeqs (sequence_blocks (b :: bs) s) s 0 from rfl]
    rw [checkSeqs_sequence (b :: bs) s s 0 h2 hslen (by simpa using Nat.mod_eq_of_lt h2)]
    simp only [if_true]
    rw [show (⟨toLEBytes 16 s, b⟩ :: sequence_blocks bs ((s + 1) % 2 ^ 128)) =
        sequence_blocks (b :: bs) s from rfl]
    rw [sequence_blocks_map_data]

/-- C4 (amended): the sequence round trip holds whenever assigning the
run `s, s+1, …` causes no carry out of the low byte of the
little-endian tag — then the derived byte-lexicographic sort coincides
with numeric order.  (The claim's unrestricted form, including wrapped
runs, is refuted by `claim_C4_cex`.) -/
theorem claim_C4 (blocks : List (List Nat)) (s : Nat) (h1 : blocks ≠ [])
    (h2 : s < 2 ^ 128) (h3 : s % 256 + blocks.length ≤ 256) :
    unsequence_blocks (sequence_blocks blocks s) = some blocks :=
  unseq_seq_good blocks s h1 h2 h3

/-- Counterexample for C4 as stated: with base 255 and two blocks the
tags 255 and 256 sort in the wrong (byte-lexicographic) order, so the
round trip fails without any `u128` wrap. -/
theorem claim_C4_cex :
    unsequence_blocks (sequence_blocks [[1], [2]] 255) ≠ some [[1], [2]] := by
  rw [show unsequence_blocks (sequence_blocks [[1], [2]] 255) = Option.none from rfl]
  simp

/-- Witness for the amended C4 at base 0 with two blocks. -/
theorem claim_C4_witness :
    unsequence_blocks (sequence_blocks [[1], [2]] 0) = some [[1], [2]] :=
  claim_C4 [[1], [2]] 0 (by decide) (by norm_num) (by decide)

/-! ## AONT round trips (C6)

The XOR-mask structure of both variants cancels for any digest
functions; the Rivest key block additionally needs the key fragments
to hold all 32 key bytes, which requires `32 ≤ fragsPerBlock · F`. -/

lemma maskFrags_length (C : Crypto) (K : List Nat) :
    ∀ (fs : List (List Nat)) (n : Nat), (maskFrags C K n fs).length = fs.length := by
  intro fs
  induction fs with
  | nil => intro n; rfl
  | cons f fs ih => intro n; simp [maskFrags, ih]

lemma maskFrags_cancel (C : Crypto) (K : List Nat) :
    ∀ (fs : List (List Nat)) (n : Nat), maskFrags C K n (maskFrags C K n fs) = fs := by
  intro fs
  induction fs with
  | nil => intro n; rfl
  | cons f fs ih =>
    intro n
    show xorInPlace (xorInPlace f (prf C K n f.length))
        (prf C K n (xorInPlace f (prf C K n f.length)).length) ::
        maskFrags C K (n + 1) (maskFrags C K (n + 1) fs) = f :: fs
    rw [xorInPlace_length, xorInPlace_cancel, ih]

lemma xorHashFold_pull (C : Crypto) :
    ∀ (fs : List (List Nat)) (n : Nat) (x y : List Nat),
      xorHashFold C n (xorInPlace x y) fs = xorInPlace (xorHashFold C n x fs) y := by
  intro fs
  induction fs with
  | nil => intro n x y; rfl
  | cons f fs ih =>
    intro n x y
    show xorHashFold C (n + 1)
        (xorInPlace (xorInPlace x y) (hash_indexed C n f)) fs = _
    rw [xorInPlace_swap, ih]
    rfl

lemma xorHashFold_cancel (C : Crypto) :
    ∀ (fs : List (List Nat)) (n : Nat) (kb : List Nat),
      xorHashFold C n (xorHashFold C n kb fs) fs = kb := by
  intro fs
  induction fs with
  | nil => intro n kb; rfl
  | cons f fs ih =>
    intro n kb
    show xorHashFold C (n + 1)
        (xorInPlace (xorHashFold C (n + 1) (xorInPlace kb (hash_indexed C n f)) fs)
          (hash_indexed C n f)) fs = kb
    rw [xorHashFold_pull, xorHashFold_pull, xorHashFold_pull, xorInPlace_cancel]
    exact ih (n + 1) kb

lemma xorHashFold_length (C : Crypto) :
    ∀ (fs : List (List Nat)) (n : Nat) (kb : List Nat),
      (xorHashFold C n kb fs).length = kb.length := by
  intro fs
  induction fs with
  | nil => intro n kb; rfl
  | cons f fs ih =>
    intro n kb
    show (xorHashFold C (n + 1) (xorInPlace kb (hash_indexed C n f)) fs).length = _
    rw [ih, xorInPlace_length]

lemma maskHalf_cancel (C : Crypto) (seed : List Nat) :
    ∀ fs : List (List Nat), maskHalf C seed (maskHalf C seed fs) = fs := by
  intro fs
  induction fs with
  | nil => rfl
  | cons f fs ih =>
    show xorInPlace (xorInPlace f (expand_hash C seed f.length))
        (expand_hash C seed (xorInPlace f (expand_hash C seed f.length)).length) ::
        maskHalf C seed (maskHalf C seed fs) = f :: fs
    rw [xorInPlace_length, xorInPlace_cancel, ih]

lemma maskHalf_length (C : Crypto) (seed : List Nat) (fs : List (List Nat)) :
    (maskHalf C seed fs).length = fs.length := by
  simp [maskHalf]

/-- The OAEP Feistel net is an involution pair with no side
conditions. -/
lemma oaep_roundtrip (C : Crypto) (frags : List (List Nat)) :
    oaep_aont_reverse C (oaep_aont_apply C frags) = frags := by
  by_cases hlen : frags.length < 2
  · rw [oaep_aont_apply, if_pos hlen, oaep_aont_reverse, if_pos hlen]
  · rw [oaep_aont_apply, if_neg hlen]
    dsimp only
    set mid := frags.length / 2 with hmid
    set left := frags.take mid with hleft
    set right := frags.drop mid with hright
    set rightMasked := maskHalf C (compute_half_hash C left) right with hrm
    set leftMasked := maskHalf C (compute_half_hash C rightMasked) left with hlm
    have hlensum : (leftMasked ++ rightMasked).length = frags.length := by
      rw [List.length_append, hlm, hrm, maskHalf_length, maskHalf_length, hleft, hright]
      rw [List.length_take, List.length_drop]
      omega
    have hmidlt : mid < frags.length := by omega
    have hlml : leftMasked.length = mid := by
      rw [hlm, maskHalf_length, hleft, List.length_take]
      omega
    rw [oaep_aont_reverse, if_neg (by omega)]
    dsimp only
    rw [hlensum, ← hmid]
    rw [List.take_left' hlml, List.drop_left' hlml]
    rw [hlm, maskHalf_cancel]
    rw [hrm, maskHalf_cancel]
    rw [hleft, hright, List.take_append_drop]



lemma keyFragsNeeded_eq (F : Nat) (hF : 1 ≤ F) : (KEY_SIZE + F - 1) / F = 31 / F + 1 := by
  have h : KEY_SIZE + F - 1 = 31 + F := by unfold KEY_SIZE; omega
  rw [h, Nat.add_div_right _ (by omega)]

lemma needed_mul_bounds (F : Nat) (hF : 1 ≤ F) :
    31 / F * F < 32 ∧ 32 ≤ (31 / F + 1) * F := by
  have hdm := Nat.div_add_mod 31 F
  have hml : 31 % F < F := Nat.mod_lt _ (by omega)
  constructor
  · rw [Nat.mul_comm]
    omega
  · rw [Nat.succ_mul, Nat.mul_comm]
    omega

lemma enumFrom_map_range (g : Nat → α) :
    ∀ (cnt j : Nat), List.enumFrom j ((List.range' j cnt).map g) =
      (List.range' j cnt).map (fun i => (i, g i)) := by
  intro cnt
  induction cnt with
  | zero => intro j; rfl
  | succ cnt ih =>
    intro j
    rw [List.range'_succ]
    simp only [List.map_cons, List.enumFrom_cons, ih (j + 1)]

lemma writeFold (kb : List Nat) (F : Nat) (hkb : kb.length = 32) (hF : 1 ≤ F) :
    ∀ (cnt j : Nat) (acc : List Nat), j + cnt = 31 / F + 1 → acc.length = 32 →
      acc.take (min (j * F) 32) = kb.take (min (j * F) 32) →
      List.foldl
        (fun kb2 i =>
          if i * F < KEY_SIZE then
            setSlice kb2 (i * F) ((mkKeyFrag kb F i).take (min (i * F + F) KEY_SIZE - i * F))
          else kb2)
        acc (List.range' j cnt) = kb := by
  intro cnt
  induction cnt with
  | zero =>
    intro j acc hj hacc hpre
    have hge : 32 ≤ j * F := by
      rw [show j = 31 / F + 1 from by omega]
      exact (needed_mul_bounds F hF).2
    show acc = kb
    have h1 : min (j * F) 32 = 32 := by omega
    rw [h1, List.take_of_length_le (by omega), List.take_of_length_le (by omega)] at hpre
    exact hpre
  | succ cnt ih =>
    intro j acc hj hacc hpre
    have hjle : j ≤ 31 / F := by omega
    have hjF : j * F ≤ 31 / F * F := Nat.mul_le_mul_right F hjle
    have hbnd := needed_mul_bounds F hF
    have hjF32 : j * F < 32 := by omega
    rw [List.range'_succ, List.foldl_cons, if_pos (show j * F < KEY_SIZE from hjF32)]
    have hKS : KEY_SIZE = 32 := rfl
    have hneed : (KEY_SIZE + F - 1) / F = 31 / F + 1 := keyFragsNeeded_eq F hF
    set cl := min (j * F + F) KEY_SIZE - j * F with hcl
    have hcl32 : j * F + cl ≤ 32 := by rw [hcl, hKS]; omega
    have hclF : cl ≤ F := by rw [hcl, hKS]; omega
    have hslicelen : ((kb.drop (j * F)).take cl).length = cl := by
      rw [List.length_take, List.length_drop, hkb]; omega
    have hmk : mkKeyFrag kb F j =
        (kb.drop (j * F)).take cl ++ List.replicate (F - cl) 0 := by
      unfold mkKeyFrag
      rw [if_pos ⟨by rw [hneed]; omega, hjF32⟩]
    have htake : (mkKeyFrag kb F j).take cl = (kb.drop (j * F)).take cl := by
      rw [hmk, List.take_left' hslicelen]
    rw [htake]
    have hAlen : (acc.take (j * F)).length = j * F := by
      rw [List.length_take]; omega
    have hsetlen : (setSlice acc (j * F) ((kb.drop (j * F)).take cl)).length = 32 := by
      unfold setSlice
      rw [List.length_append, List.length_append, List.length_take, List.length_drop,
        hslicelen, hacc]
      omega
    have hpreJ : acc.take (j * F) = kb.take (j * F) := by
      have hmin : min (j * F) 32 = j * F := by omega
      rw [hmin] at hpre
      exact hpre
    have hpre2 : (setSlice acc (j * F) ((kb.drop (j * F)).take cl)).take
        (min ((j + 1) * F) 32) = kb.take (min ((j + 1) * F) 32) := by
      have hmin : min ((j + 1) * F) 32 = j * F + cl := by
        rw [Nat.succ_mul, hcl, hKS]; omega
      rw [hmin]
      unfold setSlice
      rw [List.append_assoc, List.take_append_eq_append_take,
        List.take_of_length_le (by omega : (acc.take (j * F)).length ≤ j * F + cl),
        hAlen, Nat.add_sub_cancel_left, List.take_append_eq_append_take,
        List.take_of_length_le (by omega : ((kb.drop (j * F)).take cl).length ≤ cl),
        hslicelen, Nat.sub_self, List.take_zero, List.append_nil, hpreJ,
        ← List.take_add]
    exact ih (j + 1) _ (by omega) hsetlen hpre2



lemma reconstruct_spread (kb : List Nat) (F fpb : Nat) (hkb : kb.length = 32)
    (hF : 1 ≤ F) (hfpb : 31 / F + 1 ≤ fpb) :
    reconstructKeyBlock ((List.range fpb).map (mkKeyFrag kb F)) F = kb := by
  unfold reconstructKeyBlock
  rw [keyFragsNeeded_eq F hF]
  dsimp only
  rw [← List.map_take, List.take_range, min_eq_left hfpb,
    List.enum_eq_enumFrom, List.range_eq_range', enumFrom_map_range, List.foldl_map]
  exact writeFold kb F hkb hF (31 / F + 1) 0 (List.replicate KEY_SIZE 0) (by omega)
    (by simp [KEY_SIZE]) (by simp)

lemma rivest_roundtrip (C : Crypto) (f0 : List Nat) (rest : List (List Nat))
    (F fpb : Nat) (K : List Nat) (hf0 : f0.length = F) (hF : 1 ≤ F) (hfpb : 1 ≤ fpb)
    (hcap : 32 ≤ fpb * F) (hK : K.length = 32) :
    rivest_aont_reverse C (rivest_aont_apply C (f0 :: rest) fpb K) fpb = f0 :: rest := by
  have happly : rivest_aont_apply C (f0 :: rest) fpb K =
      maskFrags C K 0 (f0 :: rest) ++
        (List.range fpb).map
          (mkKeyFrag (xorHashFold C 0 K (maskFrags C K 0 (f0 :: rest))) f0.length) := rfl
  rw [happly, hf0]
  have hmlen : (maskFrags C K 0 (f0 :: rest)).length = rest.length + 1 := by
    rw [maskFrags_length]
    simp
  have hkflen : ((List.range fpb).map
      (mkKeyFrag (xorHashFold C 0 K (maskFrags C K 0 (f0 :: rest))) F)).length = fpb := by
    simp
  have hcons : maskFrags C K 0 (f0 :: rest) =
      xorInPlace f0 (prf C K 0 f0.length) :: maskFrags C K 1 rest := rfl
  unfold rivest_aont_reverse
  rw [if_neg (by rw [List.length_append, hmlen, hkflen]; omega)]
  rw [hcons]
  show maskFrags C
      (xorHashFold C 0
        (reconstructKeyBlock
          ((xorInPlace f0 (prf C K 0 f0.length) :: maskFrags C K 1 rest ++
              (List.range fpb).map
                (mkKeyFrag (xorHashFold C 0 K (maskFrags C K 0 (f0 :: rest))) F)).drop
            ((xorInPlace f0 (prf C K 0 f0.length) :: maskFrags C K 1 rest ++
                (List.range fpb).map
                  (mkKeyFrag (xorHashFold C 0 K (maskFrags C K 0 (f0 :: rest))) F)).length -
              fpb))
          (xorInPlace f0 (prf C K 0 f0.length)).length)
        ((xorInPlace f0 (prf C K 0 f0.length) :: maskFrags C K 1 rest ++
            (List.range fpb).map
              (mkKeyFrag (xorHashFold C 0 K (maskFrags C K 0 (f0 :: rest))) F)).take
          ((xorInPlace f0 (prf C K 0 f0.length) :: maskFrags C K 1 rest ++
              (List.range fpb).map
                (mkKeyFrag (xorHashFold C 0 K (maskFrags C K 0 (f0 :: rest))) F)).length -
            fpb))) 0
      ((xorInPlace f0 (prf C K 0 f0.length) :: maskFrags C K 1 rest ++
          (List.range fpb).map
            (mkKeyFrag (xorHashFold C 0 K (maskFrags C K 0 (f0 :: rest))) F)).take
        ((xorInPlace f0 (prf C K 0 f0.length) :: maskFrags C K 1 rest ++
            (List.range fpb).map
              (mkKeyFrag (xorHashFold C 0 K (maskFrags C K 0 (f0 :: rest))) F)).length -
          fpb)) = f0 :: rest
  rw [← hcons]
  have hlen2 : (maskFrags C K 0 (f0 :: rest) ++
      (List.range fpb).map
        (mkKeyFrag (xorHashFold C 0 K (maskFrags C K 0 (f0 :: rest))) F)).length -
      fpb = (maskFrags C K 0 (f0 :: rest)).length := by
    rw [List.length_append, hkflen]
    omega
  rw [hlen2, List.take_left' rfl, List.drop_left' rfl]
  rw [show (xorInPlace f0 (prf C K 0 f0.length)).length = F by rw [xorInPlace_length, hf0]]
  rw [reconstruct_spread _ F fpb (by rw [xorHashFold_length, hK]) hF
    (by
      have h31 : 31 / F < fpb := (Nat.div_lt_iff_lt_mul (by omega)).mpr (by omega)
      omega)]
  rw [xorHashFold_cancel, maskFrags_cancel]

/-- C6 (amended): both AONT variants invert their forward transforms
on non-empty lists of equal-size fragments — unconditionally for OAEP,
and for Rivest provided the appended key block can hold the 32-byte
key, `32 ≤ fragsPerBlock · F` (one full pipeline block, guaranteed by
header validation's `B ≥ 32`).  The claim's unrestricted `fpb ≥ 1`
form is refuted by `claim_C6_cex`. -/
theorem claim_C6 (C : Crypto) (frags : List (List Nat)) (F fpb : Nat) (K : List Nat)
    (hne : frags ≠ []) (hsz : ∀ f ∈ frags, f.length = F) (hF : 1 ≤ F)
    (hfpb : 1 ≤ fpb) (hcap : 32 ≤ fpb * F) (hK : K.length = 32) :
    reverse_aont C (apply_aont C frags .rivest fpb K) .rivest fpb = frags ∧
    reverse_aont C (apply_aont C frags .oaep fpb K) .oaep fpb = frags := by
  constructor
  · match frags, hne with
    | f0 :: rest, _ =>
      exact rivest_roundtrip C f0 rest F fpb K (hsz f0 (by simp)) hF hfpb hcap hK
  · exact oaep_roundtrip C frags

/-- Counterexample for C6 as stated: one 1-byte fragment with
`frags_per_block = 1` — the single key fragment holds only the first
of the 32 key-block bytes, the key cannot be reconstructed, and the
inverse does not restore the input. -/
theorem claim_C6_cex :
    reverse_aont testCrypto
        (apply_aont testCrypto [[0]] .rivest 1 (List.replicate 32 0)) .rivest 1 ≠
      [[0]] := by
  rw [show reverse_aont testCrypto
      (apply_aont testCrypto [[0]] .rivest 1 (List.replicate 32 0)) .rivest 1 =
      [[185]] from rfl]
  simp

/-- Witness for the amended C6: two 2-byte fragments with 16 fragments
per block (the geometry of a 32-byte block). -/
theorem claim_C6_witness :
    reverse_aont testCrypto
        (apply_aont testCrypto [[1, 2], [3, 4]] .rivest 16 (List.replicate 32 7))
        .rivest 16 = [[1, 2], [3, 4]] ∧
    reverse_aont testCrypto
        (apply_aont testCrypto [[1, 2], [3, 4]] .oaep 16 (List.replicate 32 7))
        .oaep 16 = [[1, 2], [3, 4]] :=
  claim_C6 testCrypto [[1, 2], [3, 4]] 2 16 (List.replicate 32 7) (by simp)
    (by decide) (by decide) (by decide) (by decide) (by simp)

/-! ## Block counting through the pipeline (C2, C10) -/


lemma segmentGo_spec (B : Nat) (hB : 0 < B) :
    ∀ (n : Nat) (data : List Nat), data.length ≤ n →
      (segmentGo data B).length = (data.length + B - 1) / B ∧
        ∀ b ∈ segmentGo data B, b.length = B := by
  intro n
  induction n with
  | zero =>
    intro data hlen
    have hd : data = [] := List.eq_nil_of_length_eq_zero (by omega)
    subst hd
    rw [segmentGo_step, if_neg (by simp)]
    refine ⟨by simp; rw [Nat.div_eq_of_lt (show B - 1 < B by omega)], by simp⟩
  | succ n ih =>
    intro data hlen
    by_cases hd : data.length = 0
    · have hdn : data = [] := List.eq_nil_of_length_eq_zero hd
      subst hdn
      rw [segmentGo_step, if_neg (by simp)]
      refine ⟨by simp; rw [Nat.div_eq_of_lt (show B - 1 < B by omega)], by simp⟩
    · rw [segmentGo_step, if_pos ⟨by omega, hB⟩]
      have hdrop : (data.drop B).length = data.length - B := List.length_drop B data
      have ihd := ih (data.drop B) (by omega)
      constructor
      · rw [List.length_cons, ihd.1, hdrop]
        by_cases hle : data.length ≤ B
        · rw [show data.length - B = 0 from by omega]
          rw [Nat.div_eq_of_lt (show 0 + B - 1 < B by omega)]
          rw [show data.length + B - 1 = (data.length - 1) + B from by omega,
            Nat.add_div_right _ hB, Nat.div_eq_of_lt (by omega)]
        · push_neg at hle
          rw [show data.length - B + B - 1 = (data.length - B - 1) + B from by omega,
            Nat.add_div_right _ hB,
            show data.length + B - 1 = (data.length - 1) + B from by omega,
            Nat.add_div_right _ hB,
            Nat.div_eq_sub_div hB (show B ≤ data.length - 1 by omega),
            show data.length - 1 - B = data.length - B - 1 from by omega]
      · intro b hb
        rcases List.mem_cons.mp hb with hb | hb
        · subst hb
          rw [List.length_append, List.length_take, List.length_replicate]
          omega
        · exact ihd.2 b hb

lemma segment_spec (B : Nat) (hB : 0 < B) (data : List Nat) (hne : data ≠ []) :
    (segment data B).length = (data.length + B - 1) / B ∧
      ∀ b ∈ segment data B, b.length = B := by
  unfold segment
  rw [if_neg (by simp [List.length_eq_zero]; exact hne)]
  exact segmentGo_spec B hB data.length data le_rfl

lemma chunksExact_spec (m : Nat) (hm : 0 < m) :
    ∀ (n : Nat) (l : List α), l.length ≤ n →
      (chunksExact m l).length = l.length / m ∧
        ∀ c ∈ chunksExact m l, c.length = m := by
  intro n
  induction n with
  | zero =>
    intro l hlen
    have hl : l = [] := List.eq_nil_of_length_eq_zero (by omega)
    subst hl
    rw [chunksExact_step, if_pos (by simp; omega)]
    exact ⟨by simp, by simp⟩
  | succ n ih =>
    intro l hlen
    rw [chunksExact_step]
    by_cases hc : m = 0 ∨ l.length < m
    · rw [if_pos hc]
      have hlt : l.length < m := by omega
      exact ⟨by simp [Nat.div_eq_of_lt hlt], by simp⟩
    · rw [if_neg hc]
      push_neg at hc
      have hdrop : (l.drop m).length = l.length - m := List.length_drop m l
      have ihd := ih (l.drop m) (by omega)
      constructor
      · rw [List.length_cons, ihd.1, hdrop,
          Nat.div_eq_sub_div hm (by omega : m ≤ l.length)]
      · intro c hcm
        rcases List.mem_cons.mp hcm with hcm | hcm
        · subst hcm
          rw [List.length_take]
          omega
        · exact ihd.2 c hcm

lemma fragment_all_spec (F : Nat) (hF : 0 < F) (B : Nat) (hdvd : F ∣ B)
    (blocks : List (List Nat)) (b0 : List Nat) (bt : List (List Nat))
    (hblocks : blocks = b0 :: bt) (hlen : ∀ b ∈ blocks, b.length = B) :
    (fragment_all blocks F).1.length = blocks.length * (B / F) ∧
      (fragment_all blocks F).2 = B / F := by
  subst hblocks
  constructor
  · show ((List.map (fun blk => fragment_block blk F) (b0 :: bt)).join).length = _
    rw [List.length_join]
    have hmap : ∀ b ∈ b0 :: bt, (fragment_block b F).length = B / F := by
      intro b hb
      show (chunksExact F b).length = B / F
      rw [(chunksExact_spec F hF b.length b le_rfl).1, hlen b hb]
    rw [List.map_map,
      List.map_congr_left
        (show ∀ b ∈ b0 :: bt,
            (List.length ∘ fun blk => fragment_block blk F) b = (fun _ => B / F) b from
          fun b hb => hmap b hb),
      List.map_const', List.sum_replicate, smul_eq_mul]
  · show b0.length / F = B / F
    rw [hlen b0 (by simp)]



lemma rivest_apply_length (C : Crypto) (frags : List (List Nat)) (fpb : Nat)
    (K : List Nat) (hne : frags ≠ []) :
    (rivest_aont_apply C frags fpb K).length = frags.length + fpb := by
  match frags, hne with
  | f0 :: rest, _ =>
    show (maskFrags C K 0 (f0 :: rest) ++ _).length = _
    rw [List.length_append, maskFrags_length, List.length_map, List.length_range]

lemma oaep_apply_length (C : Crypto) (frags : List (List Nat)) :
    (oaep_aont_apply C frags).length = frags.length := by
  unfold oaep_aont_apply
  by_cases hlen : frags.length < 2
  · rw [if_pos hlen]
  · rw [if_neg hlen]
    dsimp only
    rw [List.length_append, maskHalf_length, maskHalf_length, List.length_take,
      List.length_drop]
    omega

lemma unfragment_all_length (frags : List (List Nat)) (fpb : Nat)
    (hne : frags ≠ []) (hfpb : 0 < fpb) :
    (unfragment_all frags fpb).length = frags.length / fpb := by
  unfold unfragment_all
  rw [if_neg (by simp [hne]; omega)]
  rw [List.length_map, (chunksExact_spec fpb hfpb frags.length frags le_rfl).1]

lemma sequence_blocks_length : ∀ (blocks : List (List Nat)) (s : Nat),
    (sequence_blocks blocks s).length = blocks.length := by
  intro blocks
  induction blocks with
  | nil => intro s; rfl
  | cons b bs ih => intro s; simp [sequence_blocks, ih]

lemma authenticate_blocks_length (C : Crypto) (blocks : List SequencedBlock)
    (secret : List Nat) (alg : HashAlgorithm) (macBits : Nat) :
    (authenticate_blocks C blocks secret alg macBits).length = blocks.length := by
  unfold authenticate_blocks
  rw [List.length_map]

/-- Block count of the create pipeline: `⌈|payload| / B⌉` segmented
blocks, plus the Rivest key block. -/
lemma partitionPipeline_length (C : Crypto) (payload secret : List Nat)
    (hdr : VhcHeader) (K : List Nat) (s : Nat) (hB : 0 < hdr.blockSize)
    (hF : 0 < hdr.fragmentSize) (hdvd : hdr.fragmentSize ∣ hdr.blockSize)
    (hne : payload ≠ []) :
    (partitionPipeline C payload secret hdr K s).length =
      (payload.length + hdr.blockSize - 1) / hdr.blockSize +
        (match hdr.aont with | .rivest => 1 | .oaep => 0) := by
  have hseg := segment_spec hdr.blockSize hB payload hne
  set T := (payload.length + hdr.blockSize - 1) / hdr.blockSize with hT
  have hTpos : 0 < T := by
    have hp : 0 < payload.length := List.length_pos.mpr hne
    have h1 : payload.length + hdr.blockSize - 1 = (payload.length - 1) + hdr.blockSize := by
      omega
    rw [hT, h1, Nat.add_div_right _ hB]
    exact Nat.succ_pos _
  have hfpbpos : 0 < hdr.blockSize / hdr.fragmentSize :=
    Nat.lt_of_lt_of_le Nat.zero_lt_one
      ((Nat.one_le_div_iff hF).mpr (Nat.le_of_dvd hB hdvd))
  unfold partitionPipeline
  match hsegeq : segment payload hdr.blockSize with
  | [] =>
    rw [hsegeq] at hseg
    simp at hseg
    omega
  | b0 :: bt =>
    rw [hsegeq] at hseg
    have hfa := fragment_all_spec hdr.fragmentSize hF hdr.blockSize hdvd
      (b0 :: bt) b0 bt rfl hseg.2
    dsimp only
    rw [List.length_map, authenticate_blocks_length, sequence_blocks_length]
    set fpb := (fragment_all (b0 :: bt) hdr.fragmentSize).2 with hfpb
    have hfpbval : fpb = hdr.blockSize / hdr.fragmentSize := hfa.2
    have hfraglen : (fragment_all (b0 :: bt) hdr.fragmentSize).1.length =
        T * (hdr.blockSize / hdr.fragmentSize) := by
      rw [hfa.1, hseg.1]
    match halg : hdr.aont with
    | .rivest =>
      have hfragne : (fragment_all (b0 :: bt) hdr.fragmentSize).1 ≠ [] := by
        have : 0 < (fragment_all (b0 :: bt) hdr.fragmentSize).1.length := by
          rw [hfraglen]
          exact Nat.mul_pos hTpos hfpbpos
        exact List.ne_nil_of_length_pos this
      show (unfragment_all
          (rivest_aont_apply C (fragment_all (b0 :: bt) hdr.fragmentSize).1 fpb K)
          fpb).length = T + 1
      have happne : rivest_aont_apply C (fragment_all (b0 :: bt) hdr.fragmentSize).1 fpb K ≠ [] := by
        apply List.ne_nil_of_length_pos
        rw [rivest_apply_length C _ fpb K hfragne, hfraglen, hfpbval]
        have := Nat.mul_pos hTpos hfpbpos
        omega
      rw [unfragment_all_length _ fpb happne (by rw [hfpbval]; exact hfpbpos)]
      rw [rivest_apply_length C _ fpb K hfragne, hfraglen, hfpbval]
      rw [show T * (hdr.blockSize / hdr.fragmentSize) + hdr.blockSize / hdr.fragmentSize
          = (T + 1) * (hdr.blockSize / hdr.fragmentSize) from by ring]
      exact Nat.mul_div_cancel (T + 1) hfpbpos
    | .oaep =>
      show (unfragment_all
          (oaep_aont_apply C (fragment_all (b0 :: bt) hdr.fragmentSize).1)
          fpb).length = T + 0
      have happne : oaep_aont_apply C (fragment_all (b0 :: bt) hdr.fragmentSize).1 ≠ [] := by
        apply List.ne_nil_of_length_pos
        rw [oaep_apply_length, hfraglen]
        exact Nat.mul_pos hTpos hfpbpos
      rw [unfragment_all_length _ fpb happne (by rw [hfpbval]; exact hfpbpos)]
      rw [oaep_apply_length, hfraglen, hfpbval]
      rw [Nat.mul_div_cancel T hfpbpos]
      omega



lemma toLEBytes_length : ∀ (k v : Nat), (toLEBytes k v).length = k := by
  intro k
  induction k with
  | zero => intro v; rfl
  | succ k ih => intro v; simp [toLEBytes, ih]

lemma partitionMetaBytes_length (cs os : Nat) :
    (partitionMetaBytes cs os).length = META_SIZE := by
  unfold partitionMetaBytes META_SIZE
  rw [List.length_append, toLEBytes_length, toLEBytes_length]

lemma listResize_length_of_le (l : List Nat) (n : Nat) (h : l.length ≤ n) :
    (listResize l n).length = n := by
  unfold listResize
  rw [List.length_append, List.length_take, List.length_replicate]
  omega

/-- C2: with padding to `data_blocks_per_partition`, every fitting
payload yields exactly `blocks_per_partition` serialized blocks
(`N − 1` data blocks plus the key block under Rivest, `N` data blocks
under OAEP). -/
theorem claim_C2 (C : Crypto) (O : CompOracle) (data secret K : List Nat) (s : Nat)
    (hdr : VhcHeader) (hB : 0 < hdr.blockSize) (hF : 0 < hdr.fragmentSize)
    (hdvd : hdr.fragmentSize ∣ hdr.blockSize) (hT : 0 < hdr.dataBlocksPerPartition)
    (hfit : META_SIZE + (compress O data hdr.compression).length ≤
      hdr.blockSize * hdr.dataBlocksPerPartition) :
    ∃ bs, create_partition C O data secret hdr (some hdr.dataBlocksPerPartition) K s =
        .ok bs ∧ bs.length = hdr.blocksPerPartition := by
  have hmetalen : (partitionMetaBytes (compress O data hdr.compression).length data.length ++
      compress O data hdr.compression).length =
      16 + (compress O data hdr.compression).length := by
    rw [List.length_append, partitionMetaBytes_length]
    rfl
  unfold create_partition
  dsimp only
  rw [if_neg (show ¬ hdr.dataBlocksPerPartition = 0 by omega)]
  rw [if_neg (by
    rw [hmetalen]
    unfold META_SIZE at hfit
    omega)]
  refine ⟨_, rfl, ?_⟩
  have hreslen : (listResize
      (partitionMetaBytes (compress O data hdr.compression).length data.length ++
        compress O data hdr.compression)
      (hdr.blockSize * hdr.dataBlocksPerPartition)).length =
      hdr.blockSize * hdr.dataBlocksPerPartition := by
    apply listResize_length_of_le
    rw [hmetalen]
    unfold META_SIZE at hfit
    omega
  rw [partitionPipeline_length C _ secret hdr K s hB hF hdvd
    (by
      apply List.ne_nil_of_length_pos
      rw [hreslen]
      exact Nat.mul_pos hB hT)]
  rw [hreslen]
  have hdivT : (hdr.blockSize * hdr.dataBlocksPerPartition + hdr.blockSize - 1) /
      hdr.blockSize = hdr.dataBlocksPerPartition := by
    rw [show hdr.blockSize * hdr.dataBlocksPerPartition + hdr.blockSize - 1 =
      hdr.blockSize * hdr.dataBlocksPerPartition + (hdr.blockSize - 1) from by omega]
    rw [Nat.mul_add_div hB, Nat.div_eq_of_lt (by omega), Nat.add_zero]
  rw [hdivT]
  unfold VhcHeader.dataBlocksPerPartition at hT ⊢
  cases halg : hdr.aont
  · rw [halg] at hT
    dsimp only at hT ⊢
    omega
  · rw [halg] at hT
    dsimp only at hT ⊢
    omega

/-- Witness for C2: a 1-byte payload in the small OAEP test header
yields exactly 8 blocks. -/
theorem claim_C2_witness :
    ∃ bs, create_partition testCrypto testOracle [5] [1] testHeader
        (some testHeader.dataBlocksPerPartition) (List.replicate 32 0) 0 = .ok bs ∧
      bs.length = testHeader.blocksPerPartition :=
  claim_C2 testCrypto testOracle [5] [1] (List.replicate 32 0) 0 testHeader
    (by decide) (by decide) (by decide) (by decide) (by decide)

/-- C10: with `pad_to_blocks = None` there is no padding and no
size check — creation always succeeds and the block count is
`⌈(16 + |compressed|) / B⌉` plus one key block under Rivest, so it
varies with the payload size. -/
theorem claim_C10 (C : Crypto) (O : CompOracle) (data secret K : List Nat) (s : Nat)
    (hdr : VhcHeader) (hB : 0 < hdr.blockSize) (hF : 0 < hdr.fragmentSize)
    (hdvd : hdr.fragmentSize ∣ hdr.blockSize) :
    ∃ bs, create_partition C O data secret hdr Option.none K s = .ok bs ∧
      bs.length = (META_SIZE + (compress O data hdr.compression).length +
          hdr.blockSize - 1) / hdr.blockSize +
        (match hdr.aont with | .rivest => 1 | .oaep => 0) := by
  have hmetalen : (partitionMetaBytes (compress O data hdr.compression).length data.length ++
      compress O data hdr.compression).length =
      META_SIZE + (compress O data hdr.compression).length := by
    rw [List.length_append, partitionMetaBytes_length]
  unfold create_partition
  dsimp only
  refine ⟨_, rfl, ?_⟩
  rw [partitionPipeline_length C _ secret hdr K s hB hF hdvd
    (by
      apply List.ne_nil_of_length_pos
      rw [hmetalen]
      unfold META_SIZE
      omega)]
  rw [hmetalen]

/-- Witness for C10: 40 bytes of incompressible payload in the OAEP
test header yield `⌈56/32⌉ = 2` blocks — fewer than `N = 8`. -/
theorem claim_C10_witness :
    ∃ bs, create_partition testCrypto testOracle (List.replicate 40 3) [1] testHeader
        Option.none (List.replicate 32 0) 0 = .ok bs ∧
      bs.length = (META_SIZE + (compress testOracle (List.replicate 40 3)
          testHeader.compression).length + testHeader.blockSize - 1) /
          testHeader.blockSize +
        (match testHeader.aont with | .rivest => 1 | .oaep => 0) :=
  claim_C10 testCrypto testOracle (List.replicate 40 3) [1] (List.replicate 32 0) 0
    testHeader (by decide) (by decide) (by decide)

/-! ## Wrong-secret rejection (C3) -/


lemma lor_eq_zero {a b : Nat} (h : a ||| b = 0) : a = 0 ∧ b = 0 := by
  constructor
  · by_contra ha
    obtain ⟨i, hi, _⟩ := Nat.exists_most_significant_bit ha
    have h2 : (a ||| b).testBit i = true := by
      rw [Nat.testBit_or, hi]
      rfl
    rw [h] at h2
    simp [Nat.zero_testBit] at h2
  · by_contra hb
    obtain ⟨i, hi, _⟩ := Nat.exists_most_significant_bit hb
    have h2 : (a ||| b).testBit i = true := by
      rw [Nat.testBit_or, hi, Bool.or_true]
    rw [h] at h2
    simp [Nat.zero_testBit] at h2

lemma foldOrXor_eq_zero : ∀ (l : List (Nat × Nat)) (acc : Nat),
    l.foldl (fun acc p => acc ||| (p.1 ^^^ p.2)) acc = 0 →
      acc = 0 ∧ ∀ p ∈ l, p.1 = p.2 := by
  intro l
  induction l with
  | nil =>
    intro acc h
    exact ⟨h, by simp⟩
  | cons p ps ih =>
    intro acc h
    have h2 := ih (acc ||| (p.1 ^^^ p.2)) h
    have h3 := lor_eq_zero h2.1
    refine ⟨h3.1, ?_⟩
    intro q hq
    rcases List.mem_cons.mp hq with hq | hq
    · subst hq
      exact Nat.xor_eq_zero.mp h3.2
    · exact h2.2 q hq

lemma zip_pointwise_eq : ∀ (a b : List Nat), a.length = b.length →
    (∀ p ∈ a.zip b, p.1 = p.2) → a = b := by
  intro a
  induction a with
  | nil =>
    intro b hlen _
    exact (List.eq_nil_of_length_eq_zero (by simp at hlen; omega)).symm
  | cons x xs ih =>
    intro b hlen hp
    cases b with
    | nil => simp at hlen
    | cons y ys =>
      have hx : x = y := hp (x, y) (by simp [List.zip_cons_cons])
      have hxs : xs = ys := by
        apply ih ys (by simp at hlen; omega)
        intro q hq
        exact hp q (by simp [List.zip_cons_cons]; right; exact hq)
      rw [hx, hxs]

lemma ctc_eq_of_true {a b : List Nat} (h : constantTimeCompare a b = true) : a = b := by
  unfold constantTimeCompare at h
  split_ifs at h with hlen
  push_neg at hlen
  have hz := foldOrXor_eq_zero (a.zip b) 0 (by simpa using h)
  exact zip_pointwise_eq a b hlen hz.2

lemma ctc_false_of_ne {a b : List Nat} (h : a ≠ b) :
    constantTimeCompare a b = false := by
  cases hc : constantTimeCompare a b
  · rfl
  · exact absurd (ctc_eq_of_true hc) h



lemma segment_mem_length (B : Nat) (hB : 0 < B) (data : List Nat) :
    ∀ b ∈ segment data B, b.length = B := by
  unfold segment
  by_cases hd : data.length = 0
  · rw [if_pos hd]
    intro b hb
    simp at hb
    simp [hb]
  · rw [if_neg hd]
    exact (segmentGo_spec B hB data.length data le_rfl).2

lemma segment_ne_nil (B : Nat) (hB : 0 < B) (data : List Nat) :
    segment data B ≠ [] := by
  unfold segment
  by_cases hd : data.length = 0
  · rw [if_pos hd]
    simp
  · rw [if_neg hd]
    rw [segmentGo_step, if_pos ⟨by omega, hB⟩]
    simp

lemma join_length_const {c : List (List Nat)} {F : Nat}
    (h : ∀ x ∈ c, x.length = F) : c.join.length = c.length * F := by
  rw [List.length_join,
    List.map_congr_left (show ∀ x ∈ c, x.length = (fun _ => F) x from h),
    List.map_const', List.sum_replicate, smul_eq_mul]

lemma chunksExact_mem_mem (m : Nat) :
    ∀ (n : Nat) (l : List α), l.length ≤ n →
      ∀ c ∈ chunksExact m l, ∀ x ∈ c, x ∈ l := by
  intro n
  induction n with
  | zero =>
    intro l hlen c hc
    have hl : l = [] := List.eq_nil_of_length_eq_zero (by omega)
    subst hl
    rw [chunksExact_step, if_pos (by simp; omega)] at hc
    cases hc
  | succ n ih =>
    intro l hlen c hc x hx
    rw [chunksExact_step] at hc
    by_cases hcond : m = 0 ∨ l.length < m
    · rw [if_pos hcond] at hc
      cases hc
    · rw [if_neg hcond] at hc
      push_neg at hcond
      rcases List.mem_cons.mp hc with hc | hc
      · subst hc
        exact List.mem_of_mem_take hx
      · have hdrop : (l.drop m).length = l.length - m := List.length_drop m l
        have := ih (l.drop m) (by omega) c hc x hx
        exact List.mem_of_mem_drop this

lemma fragment_all_mem_length (F : Nat) (hF : 0 < F) (B : Nat)
    (blocks : List (List Nat)) (hlen : ∀ b ∈ blocks, b.length = B) :
    ∀ fr ∈ (fragment_all blocks F).1, fr.length = F := by
  intro fr hfr
  match blocks, hfr with
  | b0 :: bt, hfr =>
    obtain ⟨frs, hfrs, hmem⟩ := List.mem_join.mp hfr
    obtain ⟨b, hb, hbeq⟩ := List.mem_map.mp hfrs
    subst hbeq
    exact (chunksExact_spec F hF b.length b le_rfl).2 fr hmem

lemma maskFrags_mem_length (C : Crypto) (K : List Nat) (F : Nat) :
    ∀ (fs : List (List Nat)) (n : Nat), (∀ f ∈ fs, f.length = F) →
      ∀ g ∈ maskFrags C K n fs, g.length = F := by
  intro fs
  induction fs with
  | nil => intro n _ g hg; cases hg
  | cons f fs ih =>
    intro n hlen g hg
    rcases List.mem_cons.mp hg with hg | hg
    · subst hg
      rw [xorInPlace_length]
      exact hlen f (by simp)
    · exact ih (n + 1) (fun x hx => hlen x (by simp [hx])) g hg

lemma mkKeyFrag_length (kb : List Nat) (F : Nat) (hkb : kb.length = KEY_SIZE)
    (hF : 0 < F) (i : Nat) : (mkKeyFrag kb F i).length = F := by
  unfold mkKeyFrag
  dsimp only
  split_ifs with hc
  · have hKS : KEY_SIZE = 32 := rfl
    rw [List.length_append, List.length_take, List.length_drop,
      List.length_replicate, hkb, hKS]
    rw [hKS] at hc
    omega
  · exact List.length_replicate F 0

lemma apply_aont_mem_length (C : Crypto) (frags : List (List Nat)) (alg : Aont)
    (fpb : Nat) (K : List Nat) (F : Nat) (hF : 0 < F) (hK : K.length = KEY_SIZE)
    (hlen : ∀ f ∈ frags, f.length = F) :
    ∀ g ∈ apply_aont C frags alg fpb K, g.length = F := by
  intro g hg
  match alg with
  | .rivest =>
    match frags, hg with
    | f0 :: rest, hg =>
      show g.length = F
      rcases List.mem_append.mp hg with hg | hg
      · exact maskFrags_mem_length C K F (f0 :: rest) 0 hlen g hg
      · obtain ⟨i, _, hieq⟩ := List.mem_map.mp hg
        subst hieq
        rw [hlen f0 (by simp)]
        apply mkKeyFrag_length
        · rw [xorHashFold_length, hK]
        · exact hF
  | .oaep =>
    show g.length = F
    replace hg : g ∈ oaep_aont_apply C frags := hg
    unfold oaep_aont_apply at hg
    by_cases hsmall : frags.length < 2
    · rw [if_pos hsmall] at hg
      exact hlen g hg
    · rw [if_neg hsmall] at hg
      dsimp only at hg
      unfold maskHalf at hg
      rcases List.mem_append.mp hg with hg | hg
      · obtain ⟨f, hf, hfeq⟩ := List.mem_map.mp hg
        subst hfeq
        rw [xorInPlace_length]
        exact hlen f (List.mem_of_mem_take hf)
      · obtain ⟨f, hf, hfeq⟩ := List.mem_map.mp hg
        subst hfeq
        rw [xorInPlace_length]
        exact hlen f (List.mem_of_mem_drop hf)



lemma unfragment_all_mem_length (frags : List (List Nat)) (fpb F : Nat)
    (hfpb : 0 < fpb) (hlen : ∀ fr ∈ frags, fr.length = F) :
    ∀ blk ∈ unfragment_all frags fpb, blk.length = fpb * F := by
  intro blk hblk
  unfold unfragment_all at hblk
  split_ifs at hblk with hc
  · cases hblk
  · obtain ⟨c, hc2, hceq⟩ := List.mem_map.mp hblk
    subst hceq
    show c.join.length = fpb * F
    rw [join_length_const (fun x hx =>
      hlen x (chunksExact_mem_mem fpb frags.length frags le_rfl c hc2 x hx))]
    rw [(chunksExact_spec fpb hfpb frags.length frags le_rfl).2 c hc2]

lemma sequence_blocks_mem : ∀ (blocks : List (List Nat)) (s : Nat),
    ∀ sb ∈ sequence_blocks blocks s, sb.seqBytes.length = 16 ∧ sb.data ∈ blocks := by
  intro blocks
  induction blocks with
  | nil => intro s sb hsb; cases hsb
  | cons b bs ih =>
    intro s sb hsb
    rcases List.mem_cons.mp hsb with hsb | hsb
    · subst hsb
      exact ⟨toLEBytes_length 16 _, by simp⟩
    · have := ih ((s + 1) % 2 ^ 128) sb hsb
      exact ⟨this.1, by simp [this.2]⟩

/-- Every serialized block of the create pipeline is
`seq ‖ data ‖ MAC(secret, seq ‖ data)` with a 16-byte sequence and a
`block_size`-byte payload. -/
lemma pipeline_blocks_shape (C : Crypto) (payload secret : List Nat)
    (hdr : VhcHeader) (K : List Nat) (s : Nat) (hB : 0 < hdr.blockSize)
    (hF : 0 < hdr.fragmentSize) (hdvd : hdr.fragmentSize ∣ hdr.blockSize)
    (hK : K.length = KEY_SIZE) :
    ∀ b ∈ partitionPipeline C payload secret hdr K s, ∃ seqB d : List Nat,
      b = seqB ++ (d ++ compute_mac_raw C (seqB ++ d) secret hdr.hash hdr.macBits) ∧
        seqB.length = 16 ∧ d.length = hdr.blockSize := by
  intro b hb
  unfold partitionPipeline at hb
  dsimp only at hb
  obtain ⟨ab, hab, habeq⟩ := List.mem_map.mp hb
  subst habeq
  unfold authenticate_blocks at hab
  obtain ⟨sb, hsb, hsbeq⟩ := List.mem_map.mp hab
  subst hsbeq
  dsimp only
  refine ⟨sb.seqBytes, sb.data, by rw [List.append_assoc]; rfl, ?_, ?_⟩
  · exact (sequence_blocks_mem _ s sb hsb).1
  · have hdata := (sequence_blocks_mem _ s sb hsb).2
    have hfpbpos : 0 < hdr.blockSize / hdr.fragmentSize :=
      Nat.lt_of_lt_of_le Nat.zero_lt_one
        ((Nat.one_le_div_iff hF).mpr (Nat.le_of_dvd hB hdvd))
    have hfraglen : ∀ fr ∈ (fragment_all (segment payload hdr.blockSize)
        hdr.fragmentSize).1, fr.length = hdr.fragmentSize :=
      fragment_all_mem_length hdr.fragmentSize hF hdr.blockSize _
        (segment_mem_length hdr.blockSize hB payload)
    have happlen : ∀ g ∈ apply_aont C
        (fragment_all (segment payload hdr.blockSize) hdr.fragmentSize).1 hdr.aont
        (fragment_all (segment payload hdr.blockSize) hdr.fragmentSize).2 K,
        g.length = hdr.fragmentSize :=
      apply_aont_mem_length C _ hdr.aont _ K hdr.fragmentSize hF hK hfraglen
    have hfpbv : (fragment_all (segment payload hdr.blockSize) hdr.fragmentSize).2 =
        hdr.blockSize / hdr.fragmentSize := by
      match hseg : segment payload hdr.blockSize with
      | [] => exact absurd hseg (segment_ne_nil hdr.blockSize hB payload)
      | b0 :: bt =>
        show b0.length / hdr.fragmentSize = _
        rw [segment_mem_length hdr.blockSize hB payload b0 (by rw [hseg]; simp)]
    have := unfragment_all_mem_length _ _ hdr.fragmentSize
      (by rw [hfpbv]; exact hfpbpos) happlen sb.data hdata
    rw [this, hfpbv, Nat.div_mul_cancel hdvd]



lemma parseAuthBlock_of_shape (seqB d mac : List Nat) (B : Nat)
    (h16 : seqB.length = 16) (hd : d.length = B) :
    parseAuthBlock (seqB ++ (d ++ mac)) B =
      { seqBytes := seqB, data := d, mac := mac } := by
  unfold parseAuthBlock
  rw [List.take_left' h16, List.drop_left' h16, List.take_left' hd,
    ← List.append_assoc,
    List.drop_left' (by rw [List.length_append, h16, hd])]

/-- When no block authenticates, extraction reports the
no-blocks-authenticated integrity error. -/
lemma extract_no_auth (C : Crypto) (O : CompOracle) (blocks : List (List Nat))
    (secret : List Nat) (hdr : VhcHeader)
    (h : ∀ b ∈ blocks, b.length = 16 + hdr.blockSize + hdr.macBytes →
      verify_mac C (parseAuthBlock b hdr.blockSize) secret hdr.hash hdr.macBits =
        false) :
    extract_partition C O blocks secret hdr =
      .error (.integrityError "No blocks authenticated with this secret") := by
  unfold extract_partition
  dsimp only
  rw [show blocks.filterMap (fun block =>
      if block.length = 16 + hdr.blockSize + hdr.macBytes then
        if verify_mac C (parseAuthBlock block hdr.blockSize) secret hdr.hash
            hdr.macBits = true then
          some (parseAuthBlock block hdr.blockSize)
        else Option.none
      else Option.none) = [] from List.filterMap_eq_nil.mpr (by
    intro b hb
    by_cases hlen : b.length = 16 + hdr.blockSize + hdr.macBytes
    · rw [if_pos hlen, h b hb hlen]
      simp
    · rw [if_neg hlen])]
  rw [if_pos rfl]

/-- C3: extracting a freshly created partition with a secret whose MACs
differ from the creating secret's authenticates zero blocks and yields
the no-blocks-authenticated integrity error — the very same error value
produced for any pool of blocks in which no block authenticates
(a partition that does not exist). -/
theorem claim_C3 (C : Crypto) (O : CompOracle) (data secret secret2 K : List Nat)
    (s : Nat) (hdr : VhcHeader) (padTo : Option Nat) (bs : List (List Nat))
    (hB : 0 < hdr.blockSize) (hF : 0 < hdr.fragmentSize)
    (hdvd : hdr.fragmentSize ∣ hdr.blockSize) (hK : K.length = KEY_SIZE)
    (hneq : ∀ msg, compute_mac_raw C msg secret2 hdr.hash hdr.macBits ≠
      compute_mac_raw C msg secret hdr.hash hdr.macBits)
    (hcreate : create_partition C O data secret hdr padTo K s = .ok bs) :
    extract_partition C O bs secret2 hdr =
        .error (.integrityError "No blocks authenticated with this secret") ∧
      ∀ blocks2 : List (List Nat),
        (∀ b ∈ blocks2, b.length = 16 + hdr.blockSize + hdr.macBytes →
          verify_mac C (parseAuthBlock b hdr.blockSize) secret2 hdr.hash
            hdr.macBits = false) →
        extract_partition C O blocks2 secret2 hdr =
          .error (.integrityError "No blocks authenticated with this secret") := by
  have hshape : ∀ b ∈ bs, ∃ seqB d : List Nat,
      b = seqB ++ (d ++ compute_mac_raw C (seqB ++ d) secret hdr.hash hdr.macBits) ∧
        seqB.length = 16 ∧ d.length = hdr.blockSize := by
    unfold create_partition at hcreate
    cases padTo with
    | none =>
      dsimp only at hcreate
      injection hcreate with hcreate
      subst hcreate
      exact pipeline_blocks_shape C _ secret hdr K s hB hF hdvd hK
    | some t =>
      dsimp only at hcreate
      split_ifs at hcreate
      injection hcreate with hcreate
      subst hcreate
      exact pipeline_blocks_shape C _ secret hdr K s hB hF hdvd hK
  have hver : ∀ b ∈ bs, b.length = 16 + hdr.blockSize + hdr.macBytes →
      verify_mac C (parseAuthBlock b hdr.blockSize) secret2 hdr.hash hdr.macBits =
        false := by
    intro b hb _
    obtain ⟨seqB, d, hbeq, h16, hd⟩ := hshape b hb
    subst hbeq
    rw [parseAuthBlock_of_shape seqB d _ hdr.blockSize h16 hd]
    unfold verify_mac
    dsimp only
    exact ctc_false_of_ne (hneq (seqB ++ d))
  exact ⟨extract_no_auth C O bs secret2 hdr hver,
    fun blocks2 h2 => extract_no_auth C O blocks2 secret2 hdr h2⟩



theorem claim_C3_witness :
    ∃ bs, create_partition testCrypto testOracle [5] [1] testHeader Option.none
        (List.replicate 32 0) 0 = .ok bs ∧
      extract_partition testCrypto testOracle bs [2] testHeader =
        .error (.integrityError "No blocks authenticated with this secret") := by
  refine ⟨_, rfl, ?_⟩
  exact (claim_C3 testCrypto testOracle [5] [1] [2] (List.replicate 32 0) 0 testHeader
    Option.none _ (by decide) (by decide) (by decide) (by simp [KEY_SIZE])
    (by
      intro msg heq
      simp [testCrypto, testHeader, compute_mac_raw, truncate_mac,
        List.take_replicate] at heq
      omega)
    rfl).1

/-! ## End-to-end round trip under a carry-free sequence base

With the creating secret, a carry-free 128-bit sequence base and
honest compression/digest oracles, extraction is a left inverse of
creation: the supporting lemmas below invert each pipeline stage and
`create_extract_roundtrip` composes them.  This is exactly the
behaviour the C1 analysis shows the *drawn* base violates with
probability ≈ (N−1)/256. -/

lemma foldOrXor_self : ∀ (a : List Nat), (a.zip a).foldl
    (fun acc p => acc ||| (p.1 ^^^ p.2)) 0 = 0 := by
  intro a
  induction a with
  | nil => rfl
  | cons x xs ih =>
    show ((x :: xs).zip (x :: xs)).foldl _ 0 = 0
    rw [List.zip_cons_cons]
    show (xs.zip xs).foldl _ (0 ||| (x ^^^ x)) = 0
    rw [Nat.xor_self, Nat.or_zero]
    exact ih

lemma ctc_self (a : List Nat) : constantTimeCompare a a = true := by
  unfold constantTimeCompare
  rw [if_neg (by omega)]
  rw [foldOrXor_self]
  rfl

lemma truncExpand_length (C : Crypto) (hblake : ∀ x, 0 < (C.blake3Hash x).length) :
    ∀ (fuel : Nat) (acc : List Nat) (bytes : Nat), bytes - acc.length ≤ fuel →
      bytes ≤ (truncExpand C acc bytes).length := by
  intro fuel
  induction fuel with
  | zero =>
    intro acc bytes hfuel
    rw [truncExpand]
    have hge : ¬ acc.length < bytes := by omega
    rw [dif_neg hge]
    omega
  | succ fuel ih =>
    intro acc bytes hfuel
    rw [truncExpand]
    by_cases hlt : acc.length < bytes
    · rw [dif_pos hlt, dif_neg (by have := hblake acc; omega)]
      apply ih
      rw [List.length_append]
      have := hblake acc
      omega
    · rw [dif_neg hlt]
      omega

lemma truncate_mac_length (C : Crypto) (hblake : ∀ x, 0 < (C.blake3Hash x).length)
    (m : List Nat) (k : Nat) : (truncate_mac C m k).length = k := by
  unfold truncate_mac
  split_ifs with hk
  · rw [List.length_take]
    have := truncExpand_length C hblake (k - m.length) m k le_rfl
    omega
  · rw [List.length_take]
    omega

lemma compute_mac_raw_length (C : Crypto) (hblake : ∀ x, 0 < (C.blake3Hash x).length)
    (msg secret : List Nat) (alg : HashAlgorithm) (macBits : Nat) :
    (compute_mac_raw C msg secret alg macBits).length = macBits / 8 := by
  unfold compute_mac_raw
  match alg with
  | .sha3 => exact truncate_mac_length C hblake _ _
  | .blake3 => exact truncate_mac_length C hblake _ _
  | .sha256 => exact truncate_mac_length C hblake _ _

lemma filterMap_id_of_some {f : α → Option α} :
    ∀ l : List α, (∀ a ∈ l, f a = some a) → l.filterMap f = l := by
  intro l
  induction l with
  | nil => intro _; rfl
  | cons x xs ih =>
    intro h
    rw [List.filterMap_cons, h x (by simp)]
    rw [ih (fun a ha => h a (by simp [ha]))]

lemma join_chunksExact (n : Nat) (hn : 0 < n) :
    ∀ (fuel : Nat) (l : List α), l.length ≤ fuel → n ∣ l.length →
      (chunksExact n l).join = l := by
  intro fuel
  induction fuel with
  | zero =>
    intro l hfuel _
    have : l = [] := List.eq_nil_of_length_eq_zero (by omega)
    subst this
    rw [chunksExact_step, if_pos (by simp; omega)]
    rfl
  | succ fuel ih =>
    intro l hfuel hdvd
    rw [chunksExact_step]
    by_cases hc : n = 0 ∨ l.length < n
    · rw [if_pos hc]
      have hz : l.length = 0 := by
        rcases hdvd with ⟨k, hk⟩
        rcases Nat.eq_zero_or_pos k with h0 | h0
        · rw [h0, Nat.mul_zero] at hk
          omega
        · exfalso
          have : n ≤ l.length := by
            rw [hk]
            calc n = n * 1 := by omega
            _ ≤ n * k := Nat.mul_le_mul_left n h0
          omega
      have : l = [] := List.eq_nil_of_length_eq_zero hz
      subst this
      rfl
    · rw [if_neg hc]
      push_neg at hc
      show l.take n ++ (chunksExact n (l.drop n)).join = l
      have hdrop : (l.drop n).length = l.length - n := List.length_drop n l
      rw [ih (l.drop n) (by omega) (by
        rcases hdvd with ⟨k, hk⟩
        exact ⟨k - 1, by rw [hdrop, hk, Nat.mul_sub_one]⟩)]
      exact List.take_append_drop n l

lemma chunksExact_join_of_mem (n : Nat) (hn : 0 < n) :
    ∀ (c : List (List α)), (∀ x ∈ c, x.length = n) →
      chunksExact n c.join = c := by
  intro c
  induction c with
  | nil =>
    intro _
    rw [show ([] : List (List α)).join = [] from rfl, chunksExact_step,
      if_pos (by simp; omega)]
  | cons x xs ih =>
    intro h
    have hx : x.length = n := h x (by simp)
    show chunksExact n (x ++ xs.join) = x :: xs
    rw [chunksExact_step, if_neg (by
      push_neg
      refine ⟨by omega, ?_⟩
      rw [List.length_append]
      omega)]
    rw [List.take_left' hx, List.drop_left' hx,
      ih (fun y hy => h y (by simp [hy]))]

lemma segment_join_exact (B : Nat) (hB : 0 < B) :
    ∀ (fuel : Nat) (data : List Nat), data.length ≤ fuel → 0 < data.length →
      B ∣ data.length → (segment data B).join = data := by
  intro fuel
  induction fuel with
  | zero =>
    intro data hfuel hpos _
    omega
  | succ fuel ih =>
    intro data hfuel hpos hdvd
    unfold segment
    rw [if_neg (by omega)]
    rw [segmentGo_step, if_pos ⟨hpos, hB⟩]
    have hBle : B ≤ data.length := by
      rcases hdvd with ⟨k, hk⟩
      rcases Nat.eq_zero_or_pos k with h0 | h0
      · rw [h0, Nat.mul_zero] at hk
        omega
      · calc B = B * 1 := by omega
        _ ≤ B * k := Nat.mul_le_mul_left B h0
        _ = data.length := hk.symm
    have htake : (data.take B).length = B := by
      rw [List.length_take]
      omega
    show (data.take B ++ List.replicate (B - (data.take B).length) 0) ++
        (segmentGo (data.drop B) B).join = data
    rw [htake, Nat.sub_self, List.replicate_zero, List.append_nil]
    have hdrop : (data.drop B).length = data.length - B := List.length_drop B data
    by_cases hz : data.length = B
    · have hdz : (data.drop B).length = 0 := by omega
      have : data.drop B = [] := List.eq_nil_of_length_eq_zero hdz
      rw [this]
      rw [segmentGo_step, if_neg (by simp)]
      show data.take B ++ [] = data
      rw [List.append_nil, ← hz, List.take_length]
    · have hgoal : (segmentGo (data.drop B) B).join = data.drop B := by
        have h2 := ih (data.drop B) (by omega) (by omega) (by
          rcases hdvd with ⟨k, hk⟩
          exact ⟨k - 1, by rw [hdrop, hk, Nat.mul_sub_one]⟩)
        unfold segment at h2
        rw [if_neg (by omega)] at h2
        exact h2
      rw [hgoal, List.take_append_drop]

lemma listResize_eq_append (l : List Nat) (n : Nat) (h : l.length ≤ n) :
    listResize l n = l ++ List.replicate (n - l.length) 0 := by
  unfold listResize
  rw [List.take_of_length_le h]

lemma join_length_const' {α : Type} {c : List (List α)} {F : Nat}
    (h : ∀ x ∈ c, x.length = F) : c.join.length = c.length * F := by
  rw [List.length_join,
    List.map_congr_left (show ∀ x ∈ c, x.length = (fun _ => F) x from h),
    List.map_const', List.sum_replicate, smul_eq_mul]

lemma auth_unseq (C : Crypto) (blocks : List SequencedBlock) (secret : List Nat)
    (alg : HashAlgorithm) (m : Nat) :
    (authenticate_blocks C blocks secret alg m).map
      (fun b => SequencedBlock.mk b.seqBytes b.data) = blocks := by
  induction blocks with
  | nil => rfl
  | cons x xs ih =>
    show SequencedBlock.mk x.seqBytes x.data ::
      (authenticate_blocks C xs secret alg m).map
        (fun b => SequencedBlock.mk b.seqBytes b.data) = x :: xs
    rw [ih]

lemma fragment_unfragment_id (fragsA : List (List Nat)) (F fpb : Nat)
    (hF : 0 < F) (hfpb : 0 < fpb) (hlen : ∀ f ∈ fragsA, f.length = F)
    (hdvd : fpb ∣ fragsA.length) (hne : fragsA ≠ []) :
    fragment_all (unfragment_all fragsA fpb) F = (fragsA, fpb) := by
  have hchunks := chunksExact_spec fpb hfpb fragsA.length fragsA le_rfl
  have hcne : chunksExact fpb fragsA ≠ [] := by
    apply List.ne_nil_of_length_pos
    rw [hchunks.1]
    rcases hdvd with ⟨k, hk⟩
    rcases Nat.eq_zero_or_pos k with h0 | h0
    · rw [h0, Nat.mul_zero] at hk
      exact absurd (List.eq_nil_of_length_eq_zero hk) hne
    · rw [hk, Nat.mul_div_cancel_left k hfpb]
      exact h0
  have hmem_chunk : ∀ c ∈ chunksExact fpb fragsA, ∀ x ∈ c, x.length = F :=
    fun c hc x hx =>
      hlen x (chunksExact_mem_mem fpb fragsA.length fragsA le_rfl c hc x hx)
  obtain ⟨c0, ct, hc⟩ := List.exists_cons_of_ne_nil hcne
  unfold unfragment_all
  rw [if_neg (by simp [hne]; omega)]
  rw [hc]
  show fragment_all (unfragment_block c0 :: ct.map unfragment_block) F = _
  unfold fragment_all
  dsimp only
  refine Prod.ext ?_ ?_
  · show (((unfragment_block c0 :: ct.map unfragment_block).map
      (fun blk => fragment_block blk F)).join) = fragsA
    rw [show unfragment_block c0 :: ct.map unfragment_block =
      (c0 :: ct).map unfragment_block from rfl]
    rw [List.map_map]
    rw [List.map_congr_left (show ∀ c ∈ c0 :: ct,
        ((fun blk => fragment_block blk F) ∘ unfragment_block) c = (fun a => a) c from by
      intro c hcin
      show chunksExact F c.join = c
      exact chunksExact_join_of_mem F hF c (hmem_chunk c (by rw [hc]; exact hcin)))]
    rw [List.map_id']
    rw [← hc]
    exact join_chunksExact fpb hfpb fragsA.length fragsA le_rfl hdvd
  · show (unfragment_block c0).length / F = fpb
    have hc0len : (unfragment_block c0).length = fpb * F := by
      show c0.join.length = fpb * F
      rw [join_length_const' (hmem_chunk c0 (by rw [hc]; simp)),
        hchunks.2 c0 (by rw [hc]; simp)]
    rw [hc0len, Nat.mul_div_cancel fpb hF]

lemma unfragment_fragment_id (blocks : List (List Nat)) (F B : Nat)
    (hF : 0 < F) (hB : 0 < B) (hdvd : F ∣ B)
    (hlen : ∀ b ∈ blocks, b.length = B) (hne : blocks ≠ []) :
    unfragment_all (fragment_all blocks F).1 (B / F) = blocks := by
  obtain ⟨b0, bt, hb⟩ := List.exists_cons_of_ne_nil hne
  subst hb
  have hfpb : 0 < B / F := (Nat.one_le_div_iff hF).mpr (Nat.le_of_dvd hB hdvd)
  have hchunklen : ∀ b ∈ b0 :: bt, (fragment_block b F).length = B / F := by
    intro b hbin
    show (chunksExact F b).length = B / F
    rw [(chunksExact_spec F hF b.length b le_rfl).1, hlen b hbin]
  have hmaplen : ∀ x ∈ (b0 :: bt).map (fun blk => fragment_block blk F),
      x.length = B / F := by
    intro x hx
    obtain ⟨b, hbin, rfl⟩ := List.mem_map.mp hx
    exact hchunklen b hbin
  show unfragment_all (((b0 :: bt).map (fun blk => fragment_block blk F)).join)
    (B / F) = b0 :: bt
  have hjne : (((b0 :: bt).map (fun blk => fragment_block blk F)).join) ≠ [] := by
    apply List.ne_nil_of_length_pos
    rw [join_length_const' hmaplen]
    apply Nat.mul_pos (by simp) hfpb
  unfold unfragment_all
  rw [if_neg (by
    push_neg
    exact ⟨hjne, by omega⟩)]
  rw [chunksExact_join_of_mem (B / F) hfpb _ hmaplen]
  rw [List.map_map]
  rw [List.map_congr_left (show ∀ b ∈ b0 :: bt,
      (unfragment_block ∘ fun blk => fragment_block blk F) b = (fun a => a) b from by
    intro b hbin
    show (chunksExact F b).join = b
    exact join_chunksExact F hF b.length b le_rfl (by rw [hlen b hbin]; exact hdvd))]
  exact List.map_id' _

lemma extract_scan_pipeline (C : Crypto) (secret : List Nat) (hdr : VhcHeader)
    (hblake : ∀ x, 0 < (C.blake3Hash x).length)
    (sblocks : List SequencedBlock)
    (hsb : ∀ sb ∈ sblocks, sb.seqBytes.length = 16 ∧ sb.data.length = hdr.blockSize) :
    ((authenticate_blocks C sblocks secret hdr.hash hdr.macBits).map
        (fun b => b.seqBytes ++ b.data ++ b.mac)).filterMap (fun block =>
      if block.length = 16 + hdr.blockSize + hdr.macBytes then
        if verify_mac C (parseAuthBlock block hdr.blockSize) secret hdr.hash
            hdr.macBits = true then
          some (parseAuthBlock block hdr.blockSize)
        else Option.none
      else Option.none) =
      authenticate_blocks C sblocks secret hdr.hash hdr.macBits := by
  rw [List.filterMap_map]
  apply filterMap_id_of_some
  intro ab hab
  unfold authenticate_blocks at hab
  obtain ⟨sb, hsbmem, rfl⟩ := List.mem_map.mp hab
  obtain ⟨h16, hdB⟩ := hsb sb hsbmem
  simp only [Function.comp]
  have hmlen : (compute_mac C sb secret hdr.hash hdr.macBits).length = hdr.macBytes := by
    show (compute_mac_raw C (sb.seqBytes ++ sb.data) secret hdr.hash
      hdr.macBits).length = hdr.macBytes
    rw [compute_mac_raw_length C hblake]
    rfl
  have hblen : (sb.seqBytes ++ sb.data ++
      compute_mac C sb secret hdr.hash hdr.macBits).length =
      16 + hdr.blockSize + hdr.macBytes := by
    rw [List.length_append, List.length_append, h16, hdB, hmlen]
  rw [if_pos hblen]
  have hparse : parseAuthBlock (sb.seqBytes ++ sb.data ++
      compute_mac C sb secret hdr.hash hdr.macBits) hdr.blockSize =
      AuthenticatedBlock.mk sb.seqBytes sb.data
        (compute_mac C sb secret hdr.hash hdr.macBits) := by
    rw [List.append_assoc]
    exact parseAuthBlock_of_shape _ _ _ _ h16 hdB
  rw [hparse]
  rw [show verify_mac C (AuthenticatedBlock.mk sb.seqBytes sb.data
      (compute_mac C sb secret hdr.hash hdr.macBits)) secret hdr.hash hdr.macBits =
      true from by
    show constantTimeCompare (compute_mac_raw C (sb.seqBytes ++ sb.data) secret
      hdr.hash hdr.macBits) (compute_mac C sb secret hdr.hash hdr.macBits) = true
    exact ctc_self _]
  rw [if_pos rfl]

lemma finalize_resize (O : CompOracle) (data : List Nat) (comp : Compression)
    (n : Nat)
    (hn : 16 + (compress O data comp).length ≤ n)
    (hclen : (compress O data comp).length < 2 ^ 64)
    (hdlen : data.length < 2 ^ 64)
    (hcomp : decompress O (compress O data comp) comp = data) :
    finalize_payload O (listResize (partitionMetaBytes
      (compress O data comp).length data.length ++ compress O data comp) n) comp =
      .ok data := by
  set c := compress O data comp with hcdef
  have hmeta : (partitionMetaBytes c.length data.length ++ c).length =
      16 + c.length := by
    rw [List.length_append, partitionMetaBytes_length]
    rfl
  rw [listResize_eq_append _ n (by rw [hmeta]; omega)]
  set z : List Nat := List.replicate
    (n - (partitionMetaBytes c.length data.length ++ c).length) 0 with hzdef
  have hlen : ((partitionMetaBytes c.length data.length ++ c) ++ z).length = n := by
    rw [List.length_append, hmeta, hzdef, List.length_replicate, hmeta]
    omega
  have hshape : (partitionMetaBytes c.length data.length ++ c) ++ z =
      toLEBytes 8 c.length ++ (toLEBytes 8 data.length ++ (c ++ z)) := by
    unfold partitionMetaBytes
    rw [List.append_assoc, List.append_assoc]
  have h8take : ((partitionMetaBytes c.length data.length ++ c) ++ z).take 8 =
      toLEBytes 8 c.length := by
    rw [hshape, List.take_left' (toLEBytes_length 8 _)]
  have h8drop : ((partitionMetaBytes c.length data.length ++ c) ++ z).drop 8 =
      toLEBytes 8 data.length ++ (c ++ z) := by
    rw [hshape, List.drop_left' (toLEBytes_length 8 _)]
  have hcsval : leToNat (toLEBytes 8 c.length) = c.length := by
    rw [leToNat_toLEBytes, show (256 : Nat) ^ 8 = 2 ^ 64 from by norm_num]
    exact Nat.mod_eq_of_lt hclen
  have hosval : leToNat (toLEBytes 8 data.length) = data.length := by
    rw [leToNat_toLEBytes, show (256 : Nat) ^ 8 = 2 ^ 64 from by norm_num]
    exact Nat.mod_eq_of_lt hdlen
  unfold finalize_payload
  rw [if_neg (by rw [hlen]; show ¬ n < 16; omega)]
  dsimp only
  rw [h8take, hcsval, h8drop, List.take_left' (toLEBytes_length 8 _), hosval]
  rw [if_neg (by
    rw [hlen]
    show ¬ 16 + c.length > n
    omega)]
  have hdrop16 : ((partitionMetaBytes c.length data.length ++ c) ++ z).drop
      META_SIZE = c ++ z := by
    rw [List.append_assoc]
    exact List.drop_left' (partitionMetaBytes_length c.length data.length)
  rw [hdrop16, List.take_left' rfl, hcomp]
  rw [if_neg (by simp)]

/-- Extraction inverts steps 3–9 of creation: on the serialized blocks
of `partitionPipeline`, with the creating secret and a carry-free
sequence base, `extract_partition` reduces to `finalize_payload` on the
original padded payload. -/
lemma pipeline_extract (C : Crypto) (O : CompOracle) (payload secret K : List Nat)
    (s T : Nat) (hdr : VhcHeader)
    (hB32 : 32 ≤ hdr.blockSize) (hF : 0 < hdr.fragmentSize)
    (hdvd : hdr.fragmentSize ∣ hdr.blockSize)
    (hK : K.length = KEY_SIZE)
    (hblake : ∀ x, 0 < (C.blake3Hash x).length)
    (hs : s < 2 ^ 128) (hTpos : 0 < T)
    (hpay : payload.length = hdr.blockSize * T)
    (hnc : s % 256 + (T + match hdr.aont with | .rivest => 1 | .oaep => 0) ≤ 256) :
    extract_partition C O (partitionPipeline C payload secret hdr K s) secret hdr =
      finalize_payload O payload hdr.compression := by
  have hB : 0 < hdr.blockSize := by omega
  have hfpbpos : 0 < hdr.blockSize / hdr.fragmentSize :=
    Nat.lt_of_lt_of_le Nat.zero_lt_one
      ((Nat.one_le_div_iff hF).mpr (Nat.le_of_dvd hB hdvd))
  have hpaypos : 0 < payload.length := by
    rw [hpay]
    exact Nat.mul_pos hB hTpos
  have hpne : payload ≠ [] := List.ne_nil_of_length_pos hpaypos
  have hsegspec := segment_spec hdr.blockSize hB payload hpne
  have hcount : (segment payload hdr.blockSize).length = T := by
    rw [hsegspec.1, hpay,
      show hdr.blockSize * T + hdr.blockSize - 1 =
        hdr.blockSize * T + (hdr.blockSize - 1) from by omega,
      Nat.mul_add_div hB, Nat.div_eq_of_lt (by omega), Nat.add_zero]
  obtain ⟨b0, bt, hsegsh⟩ := List.exists_cons_of_ne_nil
    (segment_ne_nil hdr.blockSize hB payload)
  have hfa := fragment_all_spec hdr.fragmentSize hF hdr.blockSize hdvd
    (segment payload hdr.blockSize) b0 bt hsegsh
    (segment_mem_length hdr.blockSize hB payload)
  have hfa1len :
      (fragment_all (segment payload hdr.blockSize) hdr.fragmentSize).1.length =
        T * (hdr.blockSize / hdr.fragmentSize) := by
    rw [hfa.1, hcount]
  have hfamem : ∀ fr ∈
      (fragment_all (segment payload hdr.blockSize) hdr.fragmentSize).1,
      fr.length = hdr.fragmentSize :=
    fragment_all_mem_length hdr.fragmentSize hF hdr.blockSize _
      (segment_mem_length hdr.blockSize hB payload)
  have hfane : (fragment_all (segment payload hdr.blockSize) hdr.fragmentSize).1 ≠ [] :=
    List.ne_nil_of_length_pos (by
      rw [hfa1len]
      exact Nat.mul_pos hTpos hfpbpos)
  have hAmem : ∀ g ∈ apply_aont C
      (fragment_all (segment payload hdr.blockSize) hdr.fragmentSize).1 hdr.aont
      (hdr.blockSize / hdr.fragmentSize) K, g.length = hdr.fragmentSize :=
    apply_aont_mem_length C _ hdr.aont _ K hdr.fragmentSize hF hK hfamem
  have hAlen : (apply_aont C
      (fragment_all (segment payload hdr.blockSize) hdr.fragmentSize).1 hdr.aont
      (hdr.blockSize / hdr.fragmentSize) K).length =
      (T + match hdr.aont with | .rivest => 1 | .oaep => 0) *
        (hdr.blockSize / hdr.fragmentSize) := by
    cases halg : hdr.aont
    · simp only [apply_aont]
      rw [rivest_apply_length C _ _ K hfane, hfa1len]
      ring
    · simp only [apply_aont]
      rw [oaep_apply_length, hfa1len]
      ring
  have hepos : 0 < T + (match hdr.aont with | .rivest => 1 | .oaep => 0) := by
    cases hdr.aont <;> dsimp only <;> omega
  have hAne : apply_aont C
      (fragment_all (segment payload hdr.blockSize) hdr.fragmentSize).1 hdr.aont
      (hdr.blockSize / hdr.fragmentSize) K ≠ [] :=
    List.ne_nil_of_length_pos (by
      rw [hAlen]
      exact Nat.mul_pos hepos hfpbpos)
  have hAdvd : (hdr.blockSize / hdr.fragmentSize) ∣ (apply_aont C
      (fragment_all (segment payload hdr.blockSize) hdr.fragmentSize).1 hdr.aont
      (hdr.blockSize / hdr.fragmentSize) K).length :=
    ⟨T + match hdr.aont with | .rivest => 1 | .oaep => 0, by rw [hAlen]; ring⟩
  have htlen : (unfragment_all (apply_aont C
      (fragment_all (segment payload hdr.blockSize) hdr.fragmentSize).1 hdr.aont
      (hdr.blockSize / hdr.fragmentSize) K)
      (hdr.blockSize / hdr.fragmentSize)).length =
      T + (match hdr.aont with | .rivest => 1 | .oaep => 0) := by
    rw [unfragment_all_length _ _ hAne hfpbpos, hAlen,
      Nat.mul_div_cancel _ hfpbpos]
  have htne : unfragment_all (apply_aont C
      (fragment_all (segment payload hdr.blockSize) hdr.fragmentSize).1 hdr.aont
      (hdr.blockSize / hdr.fragmentSize) K)
      (hdr.blockSize / hdr.fragmentSize) ≠ [] :=
    List.ne_nil_of_length_pos (by
      rw [htlen]
      exact hepos)
  have htmem : ∀ b ∈ unfragment_all (apply_aont C
      (fragment_all (segment payload hdr.blockSize) hdr.fragmentSize).1 hdr.aont
      (hdr.blockSize / hdr.fragmentSize) K)
      (hdr.blockSize / hdr.fragmentSize), b.length = hdr.blockSize := by
    intro b hb
    rw [unfragment_all_mem_length _ _ hdr.fragmentSize hfpbpos hAmem b hb]
    exact Nat.div_mul_cancel hdvd
  have hsbfacts : ∀ sb ∈ sequence_blocks (unfragment_all (apply_aont C
      (fragment_all (segment payload hdr.blockSize) hdr.fragmentSize).1 hdr.aont
      (hdr.blockSize / hdr.fragmentSize) K)
      (hdr.blockSize / hdr.fragmentSize)) s,
      sb.seqBytes.length = 16 ∧ sb.data.length = hdr.blockSize := by
    intro sb hsb
    have hm := sequence_blocks_mem _ s sb hsb
    exact ⟨hm.1, htmem _ hm.2⟩
  have hane : authenticate_blocks C (sequence_blocks (unfragment_all (apply_aont C
      (fragment_all (segment payload hdr.blockSize) hdr.fragmentSize).1 hdr.aont
      (hdr.blockSize / hdr.fragmentSize) K)
      (hdr.blockSize / hdr.fragmentSize)) s) secret hdr.hash hdr.macBits ≠ [] := by
    apply List.ne_nil_of_length_pos
    rw [authenticate_blocks_length, sequence_blocks_length, htlen]
    exact hepos
  have hnc2 : s % 256 + (unfragment_all (apply_aont C
      (fragment_all (segment payload hdr.blockSize) hdr.fragmentSize).1 hdr.aont
      (hdr.blockSize / hdr.fragmentSize) K)
      (hdr.blockSize / hdr.fragmentSize)).length ≤ 256 := by
    rw [htlen]
    exact hnc
  have hfragtbl := fragment_unfragment_id _ hdr.fragmentSize
    (hdr.blockSize / hdr.fragmentSize) hF hfpbpos hAmem hAdvd hAne
  have hrev : reverse_aont C (apply_aont C
      (fragment_all (segment payload hdr.blockSize) hdr.fragmentSize).1 hdr.aont
      (hdr.blockSize / hdr.fragmentSize) K) hdr.aont
      (hdr.blockSize / hdr.fragmentSize) =
      (fragment_all (segment payload hdr.blockSize) hdr.fragmentSize).1 := by
    cases halg : hdr.aont
    · simp only [apply_aont, reverse_aont]
      obtain ⟨f0, rest, hf⟩ := List.exists_cons_of_ne_nil hfane
      rw [hf]
      exact rivest_roundtrip C f0 rest hdr.fragmentSize _ K
        (hfamem f0 (by rw [hf]; simp)) (by omega) (by omega)
        (by rw [Nat.div_mul_cancel hdvd]; exact hB32) hK
    · simp only [apply_aont, reverse_aont]
      exact oaep_roundtrip C _
  have hunfrag := unfragment_fragment_id (segment payload hdr.blockSize)
    hdr.fragmentSize hdr.blockSize hF hB hdvd
    (segment_mem_length hdr.blockSize hB payload)
    (segment_ne_nil hdr.blockSize hB payload)
  have hjoin : (segment payload hdr.blockSize).join = payload :=
    segment_join_exact hdr.blockSize hB payload.length payload le_rfl hpaypos
      ⟨T, hpay⟩
  unfold extract_partition partitionPipeline
  dsimp only
  rw [hfa.2]
  rw [extract_scan_pipeline C secret hdr hblake _ hsbfacts]
  rw [if_neg hane]
  rw [auth_unseq]
  rw [unseq_seq_good _ s htne hs hnc2]
  dsimp only
  rw [hfragtbl]
  dsimp only
  rw [hrev, hunfrag, hjoin]

/-- End-to-end round trip of a partition under the intended (numeric)
behaviour of the sequence sort: when the drawn base causes no low-byte
carry, extracting a created padded partition with the creating secret
returns the original data. -/
theorem create_extract_roundtrip (C : Crypto) (O : CompOracle)
    (data secret K : List Nat) (s : Nat) (hdr : VhcHeader) (bs : List (List Nat))
    (hB32 : 32 ≤ hdr.blockSize) (hF : 0 < hdr.fragmentSize)
    (hdvd : hdr.fragmentSize ∣ hdr.blockSize)
    (hT : 0 < hdr.dataBlocksPerPartition)
    (hK : K.length = KEY_SIZE)
    (hblake : ∀ x, 0 < (C.blake3Hash x).length)
    (hs : s < 2 ^ 128)
    (hnc : s % 256 + hdr.blocksPerPartition ≤ 256)
    (hfit : META_SIZE + (compress O data hdr.compression).length ≤
      hdr.blockSize * hdr.dataBlocksPerPartition)
    (hclen : (compress O data hdr.compression).length < 2 ^ 64)
    (hdlen : data.length < 2 ^ 64)
    (hcomp : decompress O (compress O data hdr.compression) hdr.compression = data)
    (hcreate : create_partition C O data secret hdr
      (some hdr.dataBlocksPerPartition) K s = .ok bs) :
    extract_partition C O bs secret hdr = .ok data := by
  have hM : META_SIZE = 16 := rfl
  have hmetalen : (partitionMetaBytes (compress O data hdr.compression).length
      data.length ++ compress O data hdr.compression).length =
      16 + (compress O data hdr.compression).length := by
    rw [List.length_append, partitionMetaBytes_length]
    rfl
  unfold create_partition at hcreate
  dsimp only at hcreate
  rw [if_neg (show ¬ hdr.dataBlocksPerPartition = 0 by omega)] at hcreate
  rw [if_neg (by rw [hmetalen]; omega)] at hcreate
  injection hcreate with hbs
  subst hbs
  have hresize : (listResize (partitionMetaBytes (compress O data
      hdr.compression).length data.length ++ compress O data hdr.compression)
      (hdr.blockSize * hdr.dataBlocksPerPartition)).length =
      hdr.blockSize * hdr.dataBlocksPerPartition := by
    apply listResize_length_of_le
    rw [hmetalen]
    omega
  have hnc2 : s % 256 + (hdr.dataBlocksPerPartition +
      match hdr.aont with | .rivest => 1 | .oaep => 0) ≤ 256 := by
    unfold VhcHeader.dataBlocksPerPartition at hT ⊢
    cases halg : hdr.aont
    · rw [halg] at hT
      dsimp only at hT ⊢
      omega
    · rw [halg] at hT
      dsimp only at hT ⊢
      omega
  rw [pipeline_extract C O _ secret K s hdr.dataBlocksPerPartition hdr hB32 hF hdvd
    hK hblake hs hT hresize hnc2]
  exact finalize_resize O data hdr.compression _ (by omega) hclen hdlen hcomp

/-! ## Round-trip failure at a carrying sequence base (C1)

`create_partition` draws its 128-bit sequence base uniformly at
random.  Whenever the run `s, …, s+N−1` carries out of the low byte
(probability ≈ (N−1)/256 per creation), the byte-lexicographic sort
inside `unsequence_blocks` misorders the tags and recovery fails, so
`recover(create(P, secret, H), secret, H) = P` does not hold for the
code as written. -/

set_option maxRecDepth 200000 in
/-- C1 (bug evaluation): with the valid header `testHeader`
(N = 8, B = 32), payload `[7, 13]` and secret `[1, 2]`, creation with
internal sequence base 255 succeeds but extraction with the *same*
secret fails with the invalid-sequence integrity error, while the same
creation with base 0 round-trips — the failure is caused solely by the
low-byte carry in the drawn base. -/
theorem claim_C1_bug :
    (∃ bs, create_partition testCrypto testOracle [7, 13] [1, 2] testHeader
        (some testHeader.dataBlocksPerPartition) (List.replicate 32 5) 255 =
          .ok bs ∧
      extract_partition testCrypto testOracle bs [1, 2] testHeader =
        .error (.integrityError "Invalid sequence numbers")) ∧
    (∃ bs, create_partition testCrypto testOracle [7, 13] [1, 2] testHeader
        (some testHeader.dataBlocksPerPartition) (List.replicate 32 5) 0 =
          .ok bs ∧
      extract_partition testCrypto testOracle bs [1, 2] testHeader = .ok [7, 13]) :=
  ⟨⟨_, rfl, by rfl⟩, ⟨_, rfl, by rfl⟩⟩

end Hypercube
